import Mathlib

/-!
Character frequencies of a text file

A verification development for `TextFile::get_character_frequencies`
(`code/src/textfile.cpp`).

Modelling conventions.

* A `char` is one 8-bit code unit: `CChar := Fin 256`.
* `unsigned int` is 32 bits wide; arithmetic on it is arithmetic on `Nat`
  reduced modulo `UINT_MOD = 2 ^ 32`.  `size_t` arithmetic is reduced modulo
  `SIZE_MOD = 2 ^ 64`.
* The `std::unordered_map<char, unsigned int>` is an association list with
  unique keys, kept in insertion order.  The order in which a range-`for`
  visits the map is not fixed by the language, so it is a parameter `order`
  of the model; a legal order visits every entry exactly once
  (`ValidOrder`).
* A `std::ifstream` is the list of characters still to be read.  A file
  that cannot be opened is `none`.
* A `double` is an IEEE 754 binary64 number.  A finite value is the exact
  rational it denotes (the sign of a zero is not kept); `none` stands for a
  non-finite value (an infinity or a NaN).  Every operation on doubles
  (conversion from an integer, `+`, `-`, `*`, `/`, `std::sqrt`) returns the
  exact result rounded to nearest, ties to even (`round64`, `sqrt64`), each
  operation being rounded on its own (no fused multiply-add, no extended
  precision).
* Indexing a `std::vector` outside its bounds is undefined behaviour: the
  run ends in `Outcome.undefined_behaviour`.
-/

namespace TextFile

/-- A `char`: one 8-bit code unit. -/
abbrev CChar := Fin 256

/-- The space character `' '`. -/
def space : CChar := 32

/-- The line terminator `'\n'`, the delimiter of `std::getline`. -/
def newline : CChar := 10

/-- Number of values of an `unsigned int`. -/
def UINT_MOD : Nat := 4294967296

/-- The constant `UINT32_MAX` of `<cstdint>`. -/
def UINT32_MAX : Nat := 4294967295

/-- Number of values of a `size_t`. -/
def SIZE_MOD : Nat := 18446744073709551616

/-- The frequency table `std::unordered_map<char, unsigned int>`. -/
abbrev Table := List (CChar × Nat)

/-- Value stored under a key, if the key is present. -/
def Table.find? : Table → CChar → Option Nat
  | [], _ => none
  | (key, frequency) :: rest, character =>
      if key = character then some frequency else Table.find? rest character

/-- The keys of the table. -/
def Table.keys (table : Table) : List CChar := table.map Prod.fst

/-- Sum of all the counts of the table (as a mathematical integer). -/
def Table.total (table : Table) : Nat := (table.map Prod.snd).sum

/-- The statement `frequencies_table[character]++`: `operator[]` inserts the
key with the value `0` when it is absent, then the `unsigned int` is
incremented. -/
def increment : Table → CChar → Table
  | [], character => [(character, (0 + 1) % UINT_MOD)]
  | (key, frequency) :: rest, character =>
      if key = character then (key, (frequency + 1) % UINT_MOD) :: rest
      else (key, frequency) :: increment rest character

/-- The inner loop `for (char character : line) frequencies_table[character]++`. -/
def count_line (table : Table) (line : List CChar) : Table :=
  line.foldl increment table

/-- The call `std::getline(file, line)` on the characters still to be read.
`none`: nothing could be extracted (end of file), the stream fails and the
loop condition is false.  Otherwise the characters before the first `'\n'`
form the line, and the delimiter itself is extracted and dropped. -/
def getline (stream : List CChar) : Option (List CChar × List CChar) :=
  match stream with
  | [] => none
  | _ :: _ =>
      some (stream.takeWhile (fun c => c ≠ newline),
            (stream.dropWhile (fun c => c ≠ newline)).drop 1)

/-- The successive values of `line` in `while (std::getline(file, line))`. -/
def read_lines (stream : List CChar) : List (List CChar) :=
  match h : getline stream with
  | none => []
  | some (line, rest) => line :: read_lines rest
termination_by stream.length
decreasing_by
  cases stream with
  | nil => simp [getline] at h
  | cons c s =>
    simp only [getline, Option.some.injEq, Prod.mk.injEq] at h
    rw [← h.2]
    have hsub := (List.dropWhile_sublist (fun c => decide (c ≠ newline)) (l := c :: s)).length_le
    simp only [List.length_drop, List.length_cons] at hsub ⊢
    omega

/-- The loop `while (std::getline(file, line)) for (char character : line)
frequencies_table[character]++` (lines 19-24). -/
def read_loop (stream : List CChar) (table : Table) : Table :=
  match h : getline stream with
  | none => table
  | some (line, rest) => read_loop rest (count_line table line)
termination_by stream.length
decreasing_by
  cases stream with
  | nil => simp [getline] at h
  | cons c s =>
    simp only [getline, Option.some.injEq, Prod.mk.injEq] at h
    rw [← h.2]
    have hsub := (List.dropWhile_sublist (fun c => decide (c ≠ newline)) (l := c :: s)).length_le
    simp only [List.length_drop, List.length_cons] at hsub ⊢
    omega

/-- Accumulators of the most/least common scan (lines 40-41). -/
structure Scan where
  max_freq : Nat
  min_freq : Nat
  most_common : List CChar
  least_common : List CChar
  deriving DecidableEq, Repr

/-- Initial values: `max_freq = 0, min_freq = UINT32_MAX`, both vectors empty. -/
def Scan.init : Scan := ⟨0, UINT32_MAX, [], []⟩

/-- One iteration of the loop of lines 42-58. -/
def scan_step (s : Scan) (entry : CChar × Nat) : Scan :=
  let character := entry.1
  let frequency := entry.2
  if character = space then s
  else
    let s1 : Scan :=
      if frequency > s.max_freq then
        ⟨frequency, s.min_freq, [character], s.least_common⟩
      else if frequency = s.max_freq then
        ⟨s.max_freq, s.min_freq, s.most_common ++ [character], s.least_common⟩
      else s
    if frequency < s1.min_freq then
      ⟨s1.max_freq, frequency, s1.most_common, [character]⟩
    else if frequency = s1.min_freq then
      ⟨s1.max_freq, s1.min_freq, s1.most_common, s1.least_common ++ [character]⟩
    else s1

/-- The loop of lines 42-58 over the entries in iteration order. -/
def scan (entries : List (CChar × Nat)) : Scan :=
  entries.foldl scan_step Scan.init

/-- The vector `non_space_freqs` built by lines 71-75. -/
def collect_non_space (entries : List (CChar × Nat)) : List Nat :=
  (entries.filter (fun entry => entry.1 ≠ space)).map Prod.snd

/-- Nearest integer to a rational, ties to the even integer. -/
def round_half_even (x : ℚ) : ℤ :=
  if x - ⌊x⌋ < 1 / 2 then ⌊x⌋
  else if 1 / 2 < x - ⌊x⌋ then ⌊x⌋ + 1
  else if ⌊x⌋ % 2 = 0 then ⌊x⌋ else ⌊x⌋ + 1

/-- Exponent of the unit in the last place of the binary64 numbers around
`q`: 52 below the binade `⌊log₂ |q|⌋` of `q`, and `-1074` throughout the
subnormal range. -/
def quantum (q : ℚ) : ℤ := max (Int.log 2 |q|) (-1022) - 52

/-- Rounding of an exact result to binary64: to the nearest multiple of the
unit in the last place, ties to even.  `none`: the rounded value reaches
`2 ^ 1024`, the operation overflows to an infinity. -/
def round64 (q : ℚ) : Option ℚ :=
  if |(round_half_even (q / 2 ^ quantum q) : ℚ) * 2 ^ quantum q| < 2 ^ (1024 : ℤ) then
    some ((round_half_even (q / 2 ^ quantum q) : ℚ) * 2 ^ quantum q)
  else none

/-- The correctly rounded square root of a finite double `v`, as `std::sqrt`
returns it.  With `k` the exponent of the unit in the last place around the
root and `w = v / 4 ^ k`, the root in units of the last place is `√w`; its
integer part is `m0`, and it is rounded up when `w` exceeds `(m0 + 1/2) ^ 2`.
`none`: the argument is negative, the result is a NaN. -/
def sqrt64 (v : ℚ) : Option ℚ :=
  if v < 0 then none
  else
    let k : ℤ := max (Int.log 2 v / 2) (-1022) - 52
    let w : ℚ := v / (2 ^ k * 2 ^ k)
    let m0 : ℕ := Nat.sqrt ⌊w⌋₊
    let m : ℕ :=
      if w < (m0 : ℚ) * m0 + m0 + 1 / 4 then m0
      else if (m0 : ℚ) * m0 + m0 + 1 / 4 < w then m0 + 1
      else if m0 % 2 = 0 then m0 else m0 + 1
    some ((m : ℚ) * 2 ^ k)

/-- The rational `q` is a finite binary64 number: an integer of magnitude
below `2 ^ 53` times a power of two with exponent from `-1074` to `971`. -/
def Representable (q : ℚ) : Prop :=
  ∃ M j : ℤ, |M| < 2 ^ 53 ∧ -1074 ≤ j ∧ j ≤ 971 ∧ q = (M : ℚ) * 2 ^ j

/-- A `double`: a finite value is the rational it denotes, `none` is a
non-finite value. -/
abbrev Double := Option ℚ

/-- Conversion of an `unsigned int` or a `size_t` to `double`. -/
def Double.of_nat (n : Nat) : Double := round64 (n : ℚ)

/-- The sum `x + y` of two doubles. -/
def Double.add (x y : Double) : Double :=
  x.bind (fun a => y.bind (fun b => round64 (a + b)))

/-- The difference `x - y` of two doubles. -/
def Double.sub (x y : Double) : Double :=
  x.bind (fun a => y.bind (fun b => round64 (a - b)))

/-- The product `x * y` of two doubles. -/
def Double.mul (x y : Double) : Double :=
  x.bind (fun a => y.bind (fun b => round64 (a * b)))

/-- The quotient `x / y` of two doubles; a zero divisor gives an infinity or
a NaN.  The divisors of the program are converted sizes, which are finite; a
non-finite divisor is taken as a NaN. -/
def Double.div (x y : Double) : Double :=
  x.bind (fun a => y.bind (fun b => if b = 0 then none else round64 (a / b)))

/-- The call `std::sqrt(x)`. -/
def Double.sqrt (x : Double) : Double := x.bind sqrt64

/-- The access `v[i]` of a `std::vector<unsigned int>`; out of bounds is
undefined behaviour. -/
def vector_at (v : List Nat) (i : Nat) : Option Nat := v[i]?

/-- Lines 77-80: `mean` starts at `0`, every count is converted and added
(`mean += f`), and the sum is divided by the converted size. -/
def compute_mean (non_space_freqs : List Nat) : Double :=
  Double.div
    (non_space_freqs.foldl
      (fun (mean : Double) (f : Nat) => Double.add mean (Double.of_nat f)) (some 0))
    (Double.of_nat non_space_freqs.length)

/-- Lines 84-88 on the sorted vector.  `n / 2 - 1` is computed in `size_t`,
the sum of the two middle elements in `unsigned int`. -/
def compute_median (sorted : List Nat) : Option Double :=
  let n := sorted.length
  if n % 2 = 0 then
    match vector_at sorted ((n / 2 + SIZE_MOD - 1) % SIZE_MOD), vector_at sorted (n / 2) with
    | some a, some b => some (some ((((a + b) % UINT_MOD : Nat) : ℚ) / 2))
    | _, _ => none
  else
    match vector_at sorted (n / 2) with
    | some a => some (some (a : ℚ))
    | none => none

/-- Lines 94-98: `variance` starts at `0`, for every count of the sorted
vector `(f - mean) * (f - mean)` is added, and the sum is divided by the
converted size. -/
def compute_variance (sorted : List Nat) (mean : Double) : Double :=
  Double.div
    (sorted.foldl
      (fun (variance : Double) (f : Nat) =>
        Double.add variance
          (Double.mul (Double.sub (Double.of_nat f) mean) (Double.sub (Double.of_nat f) mean)))
      (some 0))
    (Double.of_nat sorted.length)

/-- What the verbose block prints (lines 28-101): the table dump, the two
lists of extreme characters with their counts, mean, median and standard
deviation; `variance` is the local of that name, whose square root is the
standard deviation. -/
structure Report where
  dump : List (CChar × Nat)
  most_common : List CChar
  max_freq : Nat
  least_common : List CChar
  min_freq : Nat
  mean : Double
  median : Double
  variance : Double
  std_dev : Double
  deriving DecidableEq

/-- The verbose block (lines 28-101) run over the entries in iteration order.
`none`: a vector was indexed out of bounds. -/
def verbose_report (entries : List (CChar × Nat)) : Option Report :=
  let s := scan entries
  let non_space_freqs := collect_non_space entries
  let mean := compute_mean non_space_freqs
  let sorted := non_space_freqs.insertionSort (fun a b => a ≤ b)
  match compute_median sorted with
  | none => none
  | some median =>
      let variance := compute_variance sorted mean
      some ⟨entries, s.most_common, s.max_freq, s.least_common, s.min_freq,
            mean, median, variance, Double.sqrt variance⟩

/-- How a call of `get_character_frequencies` ends. -/
inductive Outcome
  | returned (table : Table) (cerr : List String) (report : Option Report)
  | undefined_behaviour
  deriving DecidableEq

/-- The table a call returns, when it returns. -/
def Outcome.table? : Outcome → Option Table
  | Outcome.returned table _ _ => some table
  | Outcome.undefined_behaviour => none

/-- A legal iteration order visits every entry of the map exactly once. -/
def ValidOrder (order : Table → List (CChar × Nat)) : Prop :=
  ∀ table, (order table).Perm table

/-- `TextFile::get_character_frequencies(bool verbose)`; `file` is the
content of the file named `this->name`, `none` when it cannot be opened. -/
def get_character_frequencies (order : Table → List (CChar × Nat))
    (file : Option (List CChar)) (verbose : Bool) : Outcome :=
  match file with
  | none => Outcome.returned [] ["Error opening file!\n"] none
  | some content =>
      let frequencies_table := read_loop content []
      if verbose then
        match verbose_report (order frequencies_table) with
        | none => Outcome.undefined_behaviour
        | some report => Outcome.returned frequencies_table [] (some report)
      else Outcome.returned frequencies_table [] none

/-- The file `content` opens and `table` is the table the call returns for
it: the call with `verbose = false` returns `table` and prints nothing, and a
call that returns, under either value of `verbose`, returns `table`. -/
def ReturnsTable (order : Table → List (CChar × Nat)) (content : List CChar)
    (table : Table) : Prop :=
  get_character_frequencies order (some content) false = Outcome.returned table [] none ∧
  ∀ (verbose : Bool) (t : Table),
    (get_character_frequencies order (some content) verbose).table? = some t → t = table

/-- Number of occurrences of `c` across all the lines read from the file. -/
def occurrences (c : CChar) (content : List CChar) : Nat :=
  ((read_lines content).map (List.count c)).sum

/-- The table the read loop builds, from the empty table, out of the lines
handed to it one after the other (lines 20-24). -/
def table_of_lines (lines : List (List CChar)) : Table :=
  lines.foldl count_line []

/-! ## Binary64 rounding -/

theorem round_half_even_intCast (z : ℤ) : round_half_even (z : ℚ) = z := by
  simp [round_half_even]

theorem floor_le_round_half_even (x : ℚ) : ⌊x⌋ ≤ round_half_even x := by
  unfold round_half_even
  split_ifs <;> omega

theorem round_half_even_le_floor_add_one (x : ℚ) : round_half_even x ≤ ⌊x⌋ + 1 := by
  unfold round_half_even
  split_ifs <;> omega

theorem le_round_half_even (x : ℚ) (N : ℤ) (h : (N : ℚ) ≤ x) : N ≤ round_half_even x :=
  le_trans (Int.le_floor.2 h) (floor_le_round_half_even x)

theorem round_half_even_le (x : ℚ) (N : ℤ) (h : x ≤ (N : ℚ)) : round_half_even x ≤ N := by
  by_cases hx : x = ((⌊x⌋ : ℤ) : ℚ)
  · have : round_half_even x = ⌊x⌋ := by
      rw [hx, round_half_even_intCast, Int.floor_intCast]
    rw [this]
    have : ((⌊x⌋ : ℤ) : ℚ) ≤ (N : ℚ) := hx ▸ h
    exact_mod_cast this
  · have hlt : ((⌊x⌋ : ℤ) : ℚ) < x := lt_of_le_of_ne (Int.floor_le x) (Ne.symm hx)
    have h2 : ((⌊x⌋ : ℤ) : ℚ) < (N : ℚ) := lt_of_lt_of_le hlt h
    have h3 : ⌊x⌋ < N := by exact_mod_cast h2
    have := round_half_even_le_floor_add_one x
    omega

/-- The nearest integer is the one closer than one half. -/
theorem round_half_even_eq (x : ℚ) (m : ℤ) (h : |x - (m : ℚ)| < 1 / 2) :
    round_half_even x = m := by
  have h1 := abs_lt.1 h
  have hf1 := Int.floor_le x
  have hf2 := Int.lt_floor_add_one x
  unfold round_half_even
  split_ifs with ha hb hc
  · -- x - floor < 1/2 : floor = m
    have h3 : (m : ℚ) < (⌊x⌋ : ℚ) + 1 := by linarith
    have h4 : ((⌊x⌋ : ℤ) : ℚ) < (m : ℚ) + 1 := by linarith
    have h5 : m < ⌊x⌋ + 1 := by exact_mod_cast h3
    have h6 : ⌊x⌋ < m + 1 := by exact_mod_cast h4
    omega
  · have h3 : ((⌊x⌋ : ℤ) : ℚ) < (m : ℚ) := by linarith
    have h4 : (m : ℚ) < (⌊x⌋ : ℚ) + 2 := by linarith
    have h5 : ⌊x⌋ < m := by exact_mod_cast h3
    have h6 : m < ⌊x⌋ + 2 := by exact_mod_cast h4
    omega
  · exfalso
    have heq : x - (⌊x⌋ : ℚ) = 1 / 2 := le_antisymm (not_lt.1 hb) (not_lt.1 ha)
    have h3 : ((⌊x⌋ : ℤ) : ℚ) < (m : ℚ) + 1 := by linarith
    have h4 : (m : ℚ) < (⌊x⌋ : ℚ) + 1 := by linarith
    have h5 : ⌊x⌋ < m + 1 := by exact_mod_cast h3
    have h6 : m < ⌊x⌋ + 1 := by exact_mod_cast h4
    have h7 : m = ⌊x⌋ := by omega
    rw [h7] at h1
    linarith
  · exfalso
    have heq : x - (⌊x⌋ : ℚ) = 1 / 2 := le_antisymm (not_lt.1 hb) (not_lt.1 ha)
    have h3 : ((⌊x⌋ : ℤ) : ℚ) < (m : ℚ) + 1 := by linarith
    have h4 : (m : ℚ) < (⌊x⌋ : ℚ) + 1 := by linarith
    have h5 : ⌊x⌋ < m + 1 := by exact_mod_cast h3
    have h6 : m < ⌊x⌋ + 1 := by exact_mod_cast h4
    have h7 : m = ⌊x⌋ := by omega
    rw [h7] at h1
    linarith

theorem two_zpow_pos (k : ℤ) : (0 : ℚ) < 2 ^ k := zpow_pos (by norm_num) k

/-- The binade of a non-zero rational. -/
theorem log_abs_eq (q : ℚ) (e : ℤ) (h1 : (2 : ℚ) ^ e ≤ |q|) (h2 : |q| < 2 ^ (e + 1)) :
    Int.log 2 |q| = e := by
  have hpos : 0 < |q| := lt_of_lt_of_le (two_zpow_pos e) h1
  have ha : e ≤ Int.log 2 |q| := (Int.zpow_le_iff_le_log (by norm_num) hpos).1 (by exact_mod_cast h1)
  have hb : Int.log 2 |q| < e + 1 := (Int.lt_zpow_iff_log_lt (by norm_num) hpos).1 (by exact_mod_cast h2)
  omega

theorem quantum_zero : quantum 0 = -52 := by
  simp [quantum, Int.log_of_right_le_zero]

theorem quantum_ge (q : ℚ) : -1074 ≤ quantum q := by
  unfold quantum
  have := le_max_right (Int.log 2 |q|) (-1022)
  omega

theorem quantum_le_of_abs_lt (q : ℚ) (hq : q ≠ 0) (j : ℤ) (hj : -1074 ≤ j)
    (h : |q| < 2 ^ (j + 53)) : quantum q ≤ j := by
  have hpos : 0 < |q| := abs_pos.2 hq
  have hlog : Int.log 2 |q| < j + 53 :=
    (Int.lt_zpow_iff_log_lt (by norm_num) hpos).1 (by exact_mod_cast h)
  unfold quantum
  have := max_le (Int.le_of_lt_add_one (by omega : Int.log 2 |q| < (j + 52) + 1))
    (by omega : (-1022 : ℤ) ≤ j + 52)
  omega

theorem two_zpow_eq_cast (n : ℤ) (h : 0 ≤ n) : (2 : ℚ) ^ n = (((2 : ℤ) ^ n.toNat : ℤ) : ℚ) := by
  obtain ⟨k, rfl⟩ := Int.eq_ofNat_of_zero_le h
  simp

theorem two_zpow_split (a b : ℤ) : (2 : ℚ) ^ a = 2 ^ (a - b) * 2 ^ b := by
  rw [← zpow_add₀ (by norm_num : (2 : ℚ) ≠ 0)]
  congr 1
  omega

theorem round64_zero : round64 0 = some 0 := by
  simp only [round64, zero_div, round_half_even, Int.floor_zero, Int.cast_zero, sub_zero,
    zero_mul, abs_zero]
  norm_num

/-- A binary64 number is its own rounding. -/
theorem round64_of_representable (q : ℚ) (h : Representable q) : round64 q = some q := by
  obtain ⟨M, j, hM, hj1, hj2, rfl⟩ := h
  by_cases hq : (M : ℚ) * 2 ^ j = 0
  · rw [hq, round64_zero]
  · have hMq : |(M : ℚ)| < 2 ^ (53 : ℤ) := by
      have : ((|M| : ℤ) : ℚ) < ((2 ^ 53 : ℤ) : ℚ) := by exact_mod_cast hM
      rw [Int.cast_abs] at this
      norm_num at this ⊢
      exact this
    have habs : |(M : ℚ) * 2 ^ j| < 2 ^ (j + 53) := by
      rw [abs_mul, abs_of_pos (two_zpow_pos j), zpow_add₀ (by norm_num : (2 : ℚ) ≠ 0),
        mul_comm ((2 : ℚ) ^ j)]
      exact mul_lt_mul_of_pos_right hMq (two_zpow_pos j)
    have hk := quantum_le_of_abs_lt _ hq j hj1 habs
    have hlt : |(M : ℚ) * 2 ^ j| < 2 ^ (1024 : ℤ) :=
      lt_of_lt_of_le habs (zpow_le_zpow_right₀ (by norm_num) (by omega))
    unfold round64
    generalize quantum ((M : ℚ) * 2 ^ j) = k at hk
    have hkpos := two_zpow_pos k
    have hscaled : (M : ℚ) * 2 ^ j / 2 ^ k = ((M * 2 ^ (j - k).toNat : ℤ) : ℚ) := by
      rw [Int.cast_mul, ← two_zpow_eq_cast _ (by omega), two_zpow_split j k]
      field_simp
      ring
    have hback : ((M * 2 ^ (j - k).toNat : ℤ) : ℚ) * 2 ^ k = (M : ℚ) * 2 ^ j := by
      rw [← hscaled]
      field_simp
    rw [hscaled, round_half_even_intCast, hback, if_pos hlt]

theorem round64_natCast (n : ℕ) (h : n < 2 ^ 53) : round64 (n : ℚ) = some (n : ℚ) := by
  apply round64_of_representable
  refine ⟨(n : ℤ), 0, ?_, by norm_num, by norm_num, by simp⟩
  rw [abs_of_nonneg (by positivity)]
  exact_mod_cast h

/-- Certificate for a rounding: the binade `e` of `q` and the integer `m`
nearest to `q` in units of the last place. -/
theorem round64_cert (q : ℚ) (e m : ℤ) (h1 : (2 : ℚ) ^ e ≤ |q|) (h2 : |q| < 2 ^ (e + 1))
    (hm : |q / 2 ^ (max e (-1022) - 52) - (m : ℚ)| < 1 / 2)
    (hlt : |(m : ℚ) * 2 ^ (max e (-1022) - 52)| < 2 ^ (1024 : ℤ)) :
    round64 q = some ((m : ℚ) * 2 ^ (max e (-1022) - 52)) := by
  have hk : quantum q = max e (-1022) - 52 := by
    unfold quantum
    rw [log_abs_eq q e h1 h2]
  unfold round64
  rw [hk, round_half_even_eq _ m hm, if_pos hlt]

/-- A rounding does not leave an interval bounded by a power of two. -/
theorem round64_bounded (q : ℚ) (p : ℤ) (hp1 : -1074 ≤ p) (hp2 : p ≤ 1023)
    (h : |q| ≤ 2 ^ p) : ∃ r, round64 q = some r ∧ |r| ≤ 2 ^ p := by
  by_cases hq : q = 0
  · subst hq
    exact ⟨0, round64_zero, by simpa using (two_zpow_pos p).le⟩
  · have hk : quantum q ≤ p := by
      have hlt : |q| < 2 ^ (p + 53) :=
        lt_of_le_of_lt h (zpow_lt_zpow_right₀ (by norm_num) (by omega))
      have hpos : 0 < |q| := abs_pos.2 hq
      have hlog : Int.log 2 |q| < p + 1 :=
        (Int.lt_zpow_iff_log_lt (by norm_num) hpos).1
          (by exact_mod_cast lt_of_le_of_lt h (zpow_lt_zpow_right₀ (by norm_num) (by omega)))
      unfold quantum
      have h3 : max (Int.log 2 |q|) (-1022) ≤ max p (p + 52) :=
        max_le (le_trans (Int.le_of_lt_add_one hlog) (le_max_left _ _))
          (le_trans (by omega) (le_max_right _ _))
      have h4 : max p (p + 52) = p + 52 := max_eq_right (by omega)
      omega
    have hkpos := two_zpow_pos (quantum q)
    have hN : (2 : ℚ) ^ p = (((2 : ℤ) ^ (p - quantum q).toNat : ℤ) : ℚ) * 2 ^ quantum q := by
      rw [← two_zpow_eq_cast _ (by omega)]
      exact two_zpow_split p (quantum q)
    have hup : q / 2 ^ quantum q ≤ (((2 : ℤ) ^ (p - quantum q).toNat : ℤ) : ℚ) := by
      rw [div_le_iff₀ hkpos, ← hN]
      exact le_trans (le_abs_self q) h
    have hlow : ((-(2 : ℤ) ^ (p - quantum q).toNat : ℤ) : ℚ) ≤ q / 2 ^ quantum q := by
      rw [le_div_iff₀ hkpos, Int.cast_neg, neg_mul, ← hN]
      exact le_trans (neg_le_neg h) (neg_abs_le q)
    have h5 := round_half_even_le _ _ hup
    have h6 := le_round_half_even _ _ hlow
    have habs : |(round_half_even (q / 2 ^ quantum q) : ℚ) * 2 ^ quantum q| ≤ 2 ^ p := by
      rw [abs_mul, abs_of_pos hkpos, hN]
      apply mul_le_mul_of_nonneg_right _ hkpos.le
      rw [abs_le]
      constructor
      · exact_mod_cast h6
      · exact_mod_cast h5
    refine ⟨_, ?_, habs⟩
    unfold round64
    rw [if_pos (lt_of_le_of_lt habs (zpow_lt_zpow_right₀ (by norm_num) (by omega)))]

theorem round64_nonneg {q r : ℚ} (hq : 0 ≤ q) (h : round64 q = some r) : 0 ≤ r := by
  unfold round64 at h
  split_ifs at h
  rw [← Option.some.inj h]
  have h0 : (0 : ℤ) ≤ round_half_even (q / 2 ^ quantum q) :=
    le_round_half_even _ 0 (by simpa using div_nonneg hq (two_zpow_pos _).le)
  exact mul_nonneg (by exact_mod_cast h0) (two_zpow_pos _).le

/-- A rounding does not fall below a power of two that the exact value
reaches. -/
theorem round64_lower {q r : ℚ} (p : ℤ) (hp : -1074 ≤ p) (hq : (2 : ℚ) ^ p ≤ q)
    (h : round64 q = some r) : (2 : ℚ) ^ p ≤ r := by
  have hqpos : 0 < q := lt_of_lt_of_le (two_zpow_pos p) hq
  have habs : |q| = q := abs_of_pos hqpos
  have hpe : p ≤ Int.log 2 |q| :=
    (Int.zpow_le_iff_le_log (by norm_num) (by rw [habs]; exact hqpos)).1
      (by rw [habs]; exact_mod_cast hq)
  have he : (2 : ℚ) ^ Int.log 2 |q| ≤ q := by
    have := Int.zpow_log_le_self (b := 2) (r := |q|) (by norm_num) (by rw [habs]; exact hqpos)
    rw [habs] at this ⊢
    exact_mod_cast this
  have hk : quantum q ≤ Int.log 2 |q| := by
    unfold quantum
    rcases le_total (Int.log 2 |q|) (-1022) with hc | hc
    · rw [max_eq_right hc]
      omega
    · rw [max_eq_left hc]
      omega
  have hkpos := two_zpow_pos (quantum q)
  have hN : (2 : ℚ) ^ Int.log 2 |q|
      = (((2 : ℤ) ^ (Int.log 2 |q| - quantum q).toNat : ℤ) : ℚ) * 2 ^ quantum q := by
    rw [← two_zpow_eq_cast _ (by omega)]
    exact two_zpow_split _ (quantum q)
  have hlow : (((2 : ℤ) ^ (Int.log 2 |q| - quantum q).toNat : ℤ) : ℚ) ≤ q / 2 ^ quantum q := by
    rw [le_div_iff₀ hkpos, ← hN]
    exact he
  have h6 := le_round_half_even _ _ hlow
  unfold round64 at h
  split_ifs at h
  rw [← Option.some.inj h]
  calc (2 : ℚ) ^ p ≤ 2 ^ Int.log 2 |q| := zpow_le_zpow_right₀ (by norm_num) hpe
    _ = (((2 : ℤ) ^ (Int.log 2 |q| - quantum q).toNat : ℤ) : ℚ) * 2 ^ quantum q := hN
    _ ≤ (round_half_even (q / 2 ^ quantum q) : ℚ) * 2 ^ quantum q :=
        mul_le_mul_of_nonneg_right (by exact_mod_cast h6) hkpos.le

/-- A rounding does not come closer to zero than a power of two that the exact
value reaches in magnitude. -/
theorem round64_abs_lower {q r : ℚ} (p : ℤ) (hp : -1074 ≤ p) (hq : (2 : ℚ) ^ p ≤ |q|)
    (h : round64 q = some r) : (2 : ℚ) ^ p ≤ |r| := by
  have hpos : 0 < |q| := lt_of_lt_of_le (two_zpow_pos p) hq
  have hpe : p ≤ Int.log 2 |q| :=
    (Int.zpow_le_iff_le_log (by norm_num) hpos).1 (by exact_mod_cast hq)
  have he : (2 : ℚ) ^ Int.log 2 |q| ≤ |q| := by
    have := Int.zpow_log_le_self (b := 2) (r := |q|) (by norm_num) hpos
    exact_mod_cast this
  have hk : quantum q ≤ Int.log 2 |q| := by
    unfold quantum
    rcases le_total (Int.log 2 |q|) (-1022) with hc | hc
    · rw [max_eq_right hc]
      omega
    · rw [max_eq_left hc]
      omega
  have hkpos := two_zpow_pos (quantum q)
  have hN : (2 : ℚ) ^ Int.log 2 |q|
      = (((2 : ℤ) ^ (Int.log 2 |q| - quantum q).toNat : ℤ) : ℚ) * 2 ^ quantum q := by
    rw [← two_zpow_eq_cast _ (by omega)]
    exact two_zpow_split _ (quantum q)
  have hNpos : (0 : ℤ) ≤ (2 : ℤ) ^ (Int.log 2 |q| - quantum q).toNat := by positivity
  unfold round64 at h
  split_ifs at h
  rw [← Option.some.inj h, abs_mul, abs_of_pos hkpos]
  have hm : (((2 : ℤ) ^ (Int.log 2 |q| - quantum q).toNat : ℤ) : ℚ)
      ≤ |(round_half_even (q / 2 ^ quantum q) : ℚ)| := by
    rcases le_total 0 q with hq0 | hq0
    · have hlow : (((2 : ℤ) ^ (Int.log 2 |q| - quantum q).toNat : ℤ) : ℚ)
          ≤ q / 2 ^ quantum q := by
        rw [le_div_iff₀ hkpos, ← hN]
        exact he.trans (abs_of_nonneg hq0).le
      have h6 := le_round_half_even _ _ hlow
      have h7 : (0 : ℤ) ≤ round_half_even (q / 2 ^ quantum q) := le_trans hNpos h6
      rw [← Int.cast_abs, abs_of_nonneg h7]
      exact_mod_cast h6
    · have hup : q / 2 ^ quantum q
          ≤ ((-(2 : ℤ) ^ (Int.log 2 |q| - quantum q).toNat : ℤ) : ℚ) := by
        rw [div_le_iff₀ hkpos, Int.cast_neg, neg_mul, ← hN]
        have := he.trans (abs_of_nonpos hq0).le
        linarith
      have h6 := round_half_even_le _ _ hup
      have h7 : round_half_even (q / 2 ^ quantum q) ≤ 0 := by omega
      rw [← Int.cast_abs, abs_of_nonpos h7]
      have : (2 : ℤ) ^ (Int.log 2 |q| - quantum q).toNat
          ≤ -round_half_even (q / 2 ^ quantum q) := by omega
      exact_mod_cast this
  calc (2 : ℚ) ^ p ≤ 2 ^ Int.log 2 |q| := zpow_le_zpow_right₀ (by norm_num) hpe
    _ = (((2 : ℤ) ^ (Int.log 2 |q| - quantum q).toNat : ℤ) : ℚ) * 2 ^ quantum q := hN
    _ ≤ |(round_half_even (q / 2 ^ quantum q) : ℚ)| * 2 ^ quantum q :=
        mul_le_mul_of_nonneg_right hm hkpos.le

theorem sqrt64_zero : sqrt64 0 = some 0 := by
  simp [sqrt64]

/-- The square root of the square of a binary64 number is that number. -/
theorem sqrt64_sq (s : ℚ) (hs : 0 < s) (h : Representable s) : sqrt64 (s * s) = some s := by
  obtain ⟨M, j, hM, hj1, hj2, hsM⟩ := h
  have hMq : |(M : ℚ)| < 2 ^ (53 : ℤ) := by
    have : ((|M| : ℤ) : ℚ) < ((2 ^ 53 : ℤ) : ℚ) := by exact_mod_cast hM
    rw [Int.cast_abs] at this
    norm_num at this ⊢
    exact this
  have habs : |s| < 2 ^ (j + 53) := by
    rw [hsM, abs_mul, abs_of_pos (two_zpow_pos j), zpow_add₀ (by norm_num : (2 : ℚ) ≠ 0),
      mul_comm ((2 : ℚ) ^ j)]
    exact mul_lt_mul_of_pos_right hMq (two_zpow_pos j)
  have hk := quantum_le_of_abs_lt s hs.ne' j hj1 habs
  -- the binade of the square
  have hs1 : (2 : ℚ) ^ Int.log 2 |s| ≤ s := by
    have := Int.zpow_log_le_self (b := 2) (r := |s|) (by norm_num) (abs_pos.2 hs.ne')
    rw [abs_of_pos hs] at this ⊢
    exact_mod_cast this
  have hs2 : s < (2 : ℚ) ^ (Int.log 2 |s| + 1) := by
    have := Int.lt_zpow_succ_log_self (b := 2) (by norm_num) |s|
    rw [abs_of_pos hs] at this ⊢
    exact_mod_cast this
  have hv1 : (2 : ℚ) ^ (2 * Int.log 2 |s|) ≤ s * s := by
    have : (2 : ℚ) ^ (2 * Int.log 2 |s|) = 2 ^ Int.log 2 |s| * 2 ^ Int.log 2 |s| := by
      rw [← zpow_add₀ (by norm_num : (2 : ℚ) ≠ 0)]
      congr 1
      omega
    rw [this]
    exact mul_le_mul hs1 hs1 (two_zpow_pos _).le hs.le
  have hv2 : s * s < (2 : ℚ) ^ (2 * Int.log 2 |s| + 2) := by
    have : (2 : ℚ) ^ (2 * Int.log 2 |s| + 2)
        = 2 ^ (Int.log 2 |s| + 1) * 2 ^ (Int.log 2 |s| + 1) := by
      rw [← zpow_add₀ (by norm_num : (2 : ℚ) ≠ 0)]
      congr 1
      omega
    rw [this]
    exact mul_lt_mul'' hs2 hs2 hs.le hs.le
  have hvpos : 0 < s * s := mul_pos hs hs
  have hL1 : 2 * Int.log 2 |s| ≤ Int.log 2 (s * s) :=
    (Int.zpow_le_iff_le_log (by norm_num) hvpos).1 (by exact_mod_cast hv1)
  have hL2 : Int.log 2 (s * s) < 2 * Int.log 2 |s| + 2 :=
    (Int.lt_zpow_iff_log_lt (by norm_num) hvpos).1 (by exact_mod_cast hv2)
  have hhalf : Int.log 2 (s * s) / 2 = Int.log 2 |s| := by omega
  have hkq : max (Int.log 2 (s * s) / 2) (-1022) - 52 = quantum s := by
    rw [hhalf, quantum]
  unfold sqrt64
  rw [if_neg (not_lt.2 hvpos.le)]
  simp only [hkq]
  generalize quantum s = k at hk
  have hkpos := two_zpow_pos k
  -- the scaled value is a positive integer
  have hNpos : 0 < M := by
    by_contra hneg
    have hM0 : (M : ℚ) ≤ 0 := by exact_mod_cast not_lt.1 hneg
    have : s ≤ 0 := by
      rw [hsM]
      exact mul_nonpos_of_nonpos_of_nonneg hM0 (two_zpow_pos j).le
    linarith
  obtain ⟨N, hN⟩ : ∃ N : ℕ, s = (N : ℚ) * 2 ^ k := by
    refine ⟨M.toNat * 2 ^ (j - k).toNat, ?_⟩
    have h1 : ((M.toNat : ℕ) : ℚ) = (M : ℚ) := by
      have : ((M.toNat : ℤ)) = M := Int.toNat_of_nonneg hNpos.le
      exact_mod_cast this
    have h2 : (2 : ℚ) ^ (j - k) = ((2 ^ (j - k).toNat : ℕ) : ℚ) := by
      rw [two_zpow_eq_cast _ (by omega)]
      push_cast
      rfl
    rw [hsM, Nat.cast_mul, h1, ← h2, mul_assoc, ← two_zpow_split j k]
  have hw : s * s / (2 ^ k * 2 ^ k) = ((N * N : ℕ) : ℚ) := by
    rw [hN]
    push_cast
    field_simp
    ring
  have hfloor : ⌊((N * N : ℕ) : ℚ)⌋₊ = N * N := Nat.floor_natCast _
  have hsqrt : Nat.sqrt (N * N) = N := Nat.sqrt_eq N
  rw [hw, hfloor, hsqrt]
  have hlt : ((N * N : ℕ) : ℚ) < (N : ℚ) * N + N + 1 / 4 := by
    push_cast
    have : (0 : ℚ) ≤ N := Nat.cast_nonneg N
    linarith
  rw [if_pos hlt, hN]

/-- Certificate for a rounding, with the result given as a rational. -/
theorem round64_cert_eq (q r : ℚ) (e k m : ℤ) (hk : k = max e (-1022) - 52)
    (h1 : (2 : ℚ) ^ e ≤ |q|) (h2 : |q| < 2 ^ (e + 1))
    (hm : |q / 2 ^ k - (m : ℚ)| < 1 / 2) (hr : r = (m : ℚ) * 2 ^ k)
    (hlt : |r| < 2 ^ (1024 : ℤ)) : round64 q = some r := by
  subst hk
  rw [hr] at hlt ⊢
  exact round64_cert q e m h1 h2 hm hlt

/-- Certificate for the rounding of a positive value: its binade `e`, the
exponent `k` of the unit in the last place, and the integer `m` nearest to the
value in units of the last place. -/
theorem round64_cert_pos (q r : ℚ) (e k m : ℤ) (hk : k = max e (-1022) - 52)
    (h1 : (2 : ℚ) ^ e ≤ q) (h2 : q < 2 ^ (e + 1))
    (hm1 : (m : ℚ) - 1 / 2 < q / 2 ^ k) (hm2 : q / 2 ^ k < (m : ℚ) + 1 / 2)
    (hr : r = (m : ℚ) * 2 ^ k) (hr0 : 0 ≤ r) (hlt : r < 2 ^ (1024 : ℤ)) :
    round64 q = some r := by
  have hq : 0 < q := lt_of_lt_of_le (two_zpow_pos e) h1
  apply round64_cert_eq q r e k m hk
  · rwa [abs_of_pos hq]
  · rwa [abs_of_pos hq]
  · rw [abs_lt]
    constructor <;> linarith
  · exact hr
  · rwa [abs_of_nonneg hr0]

theorem round_half_even_close (x : ℚ) : |x - (round_half_even x : ℚ)| ≤ 1 / 2 := by
  have hf1 := Int.floor_le x
  have hf2 := Int.lt_floor_add_one x
  unfold round_half_even
  split_ifs with ha hb hc
  · rw [abs_le]
    constructor <;> linarith
  · rw [abs_le]
    push_cast
    constructor <;> linarith
  · have heq : x - (⌊x⌋ : ℚ) = 1 / 2 := le_antisymm (not_lt.1 hb) (not_lt.1 ha)
    rw [heq, abs_of_pos (by norm_num)]
  · have heq : x - (⌊x⌋ : ℚ) = 1 / 2 := le_antisymm (not_lt.1 hb) (not_lt.1 ha)
    rw [abs_le]
    push_cast
    constructor <;> linarith

/-- No integer is closer than the rounded one. -/
theorem round_half_even_nearest (x : ℚ) (N : ℤ) :
    |x - (round_half_even x : ℚ)| ≤ |x - (N : ℚ)| := by
  by_cases h : N = round_half_even x
  · rw [h]
  · have h1 : (1 : ℚ) ≤ |(N : ℚ) - (round_half_even x : ℚ)| := by
      have : (1 : ℤ) ≤ |N - round_half_even x| := Int.one_le_abs (sub_ne_zero.2 h)
      have h2 : ((1 : ℤ) : ℚ) ≤ ((|N - round_half_even x| : ℤ) : ℚ) := by exact_mod_cast this
      simpa using h2
    have h2 := round_half_even_close x
    have h3 : |(N : ℚ) - (round_half_even x : ℚ)|
        ≤ |x - (N : ℚ)| + |x - (round_half_even x : ℚ)| := by
      have : (N : ℚ) - (round_half_even x : ℚ)
          = (x - (round_half_even x : ℚ)) - (x - (N : ℚ)) := by ring
      rw [this]
      have := abs_sub (x - (round_half_even x : ℚ)) (x - (N : ℚ))
      linarith
    linarith

/-- No multiple of the unit in the last place is closer to `q` than its
rounding. -/
theorem round64_nearest_multiple {q μ : ℚ} (h : round64 q = some μ) (N : ℤ) :
    |μ - q| ≤ |(N : ℚ) * 2 ^ quantum q - q| := by
  unfold round64 at h
  split_ifs at h
  rw [← Option.some.inj h]
  have hkpos := two_zpow_pos (quantum q)
  have key := round_half_even_nearest (q / 2 ^ quantum q) N
  have e1 : (round_half_even (q / 2 ^ quantum q) : ℚ) * 2 ^ quantum q - q
      = -((q / 2 ^ quantum q - (round_half_even (q / 2 ^ quantum q) : ℚ)) * 2 ^ quantum q) := by
    field_simp
    ring
  have e2 : (N : ℚ) * 2 ^ quantum q - q
      = -((q / 2 ^ quantum q - (N : ℚ)) * 2 ^ quantum q) := by
    field_simp
    ring
  rw [e1, e2, abs_neg, abs_neg, abs_mul, abs_mul, abs_of_pos hkpos]
  exact mul_le_mul_of_nonneg_right key hkpos.le

/-- The rounding of `q` is a binary64 number nearest to `q`. -/
theorem round64_nearest {q μ : ℚ} (h : round64 q = some μ) (r : ℚ) (hr : Representable r) :
    |μ - q| ≤ |r - q| := by
  by_cases hq : q = 0
  · subst hq
    rw [round64_zero] at h
    rw [← Option.some.inj h]
    simp
  obtain ⟨M, j, hM, hj1, hj2, rfl⟩ := hr
  have hkpos := two_zpow_pos (quantum q)
  by_cases hjk : quantum q ≤ j
  · -- `r` is a multiple of the unit in the last place
    have := round64_nearest_multiple h (M * 2 ^ (j - quantum q).toNat)
    rw [Int.cast_mul, ← two_zpow_eq_cast _ (by omega), mul_assoc,
      ← two_zpow_split j (quantum q)] at this
    exact this
  · -- `r` lies below the binade of `q`
    have hjk2 : j < quantum q := not_le.1 hjk
    have hpos : 0 < |q| := abs_pos.2 hq
    have hlog : -1022 ≤ Int.log 2 |q| := by
      by_contra hc
      have : quantum q = -1074 := by
        unfold quantum
        rw [max_eq_right (by omega)]
        norm_num
      omega
    have hkq : quantum q = Int.log 2 |q| - 52 := by
      unfold quantum
      rw [max_eq_left hlog]
    have he : (2 : ℚ) ^ Int.log 2 |q| ≤ |q| := by
      have := Int.zpow_log_le_self (b := 2) (r := |q|) (by norm_num) hpos
      exact_mod_cast this
    have hMq : |(M : ℚ)| < 2 ^ (53 : ℤ) := by
      have : ((|M| : ℤ) : ℚ) < ((2 ^ 53 : ℤ) : ℚ) := by exact_mod_cast hM
      rw [Int.cast_abs] at this
      norm_num at this ⊢
      exact this
    have hr1 : |(M : ℚ) * 2 ^ j| < 2 ^ Int.log 2 |q| := by
      rw [abs_mul, abs_of_pos (two_zpow_pos j)]
      calc |(M : ℚ)| * 2 ^ j < 2 ^ (53 : ℤ) * 2 ^ j :=
            mul_lt_mul_of_pos_right hMq (two_zpow_pos j)
        _ = 2 ^ (53 + j) := (zpow_add₀ (by norm_num : (2 : ℚ) ≠ 0) 53 j).symm
        _ ≤ 2 ^ Int.log 2 |q| := zpow_le_zpow_right₀ (by norm_num) (by omega)
    -- the boundary of the binade is a multiple of the unit in the last place
    have hB : (2 : ℚ) ^ Int.log 2 |q| = (((2 : ℤ) ^ 52 : ℤ) : ℚ) * 2 ^ quantum q := by
      rw [hkq, two_zpow_split (Int.log 2 |q|) (Int.log 2 |q| - 52)]
      congr 1
      have : Int.log 2 |q| - (Int.log 2 |q| - 52) = 52 := by omega
      rw [this]
      norm_num
    rcases le_total 0 q with hq0 | hq0
    · have h1 := round64_nearest_multiple h ((2 : ℤ) ^ 52)
      rw [← hB] at h1
      have he2 : (2 : ℚ) ^ Int.log 2 |q| ≤ q := he.trans (abs_of_nonneg hq0).le
      have h2 : |(2 : ℚ) ^ Int.log 2 |q| - q| = q - 2 ^ Int.log 2 |q| := by
        rw [abs_of_nonpos (by linarith)]
        ring
      have h3 : q - |(M : ℚ) * 2 ^ j| ≤ |(M : ℚ) * 2 ^ j - q| := by
        have := abs_sub_abs_le_abs_sub q ((M : ℚ) * 2 ^ j)
        rw [abs_of_nonneg hq0, abs_sub_comm] at this
        exact this
      linarith
    · have h1 := round64_nearest_multiple h (-(2 : ℤ) ^ 52)
      rw [Int.cast_neg, neg_mul, ← hB] at h1
      have he2 : (2 : ℚ) ^ Int.log 2 |q| ≤ -q := he.trans (abs_of_nonpos hq0).le
      have h2 : |(-(2 : ℚ) ^ Int.log 2 |q|) - q| = -q - 2 ^ Int.log 2 |q| := by
        rw [abs_of_nonneg (by linarith)]
        ring
      have h3 : -q - |(M : ℚ) * 2 ^ j| ≤ |(M : ℚ) * 2 ^ j - q| := by
        have := abs_sub_abs_le_abs_sub q ((M : ℚ) * 2 ^ j)
        rw [abs_of_nonpos hq0, abs_sub_comm] at this
        exact this
      linarith

/-- A rounding of a value that a binary64 number bounds stays within that
bound. -/
theorem round64_le_of_le {q μ b : ℚ} (h : round64 q = some μ) (hb : Representable b)
    (hqb : q ≤ b) : μ ≤ b := by
  have := round64_nearest h b hb
  rw [abs_of_nonneg (by linarith : 0 ≤ b - q)] at this
  have h2 := le_abs_self (μ - q)
  linarith

theorem round64_ge_of_ge {q μ a : ℚ} (h : round64 q = some μ) (ha : Representable a)
    (haq : a ≤ q) : a ≤ μ := by
  have := round64_nearest h a ha
  rw [abs_of_nonpos (by linarith : a - q ≤ 0)] at this
  have h2 := neg_abs_le (μ - q)
  linarith

theorem representable_natCast (n : ℕ) (h : n < 2 ^ 53) : Representable (n : ℚ) := by
  refine ⟨(n : ℤ), 0, ?_, by norm_num, by norm_num, by simp⟩
  rw [abs_of_nonneg (by positivity)]
  exact_mod_cast h

theorem abs_round_half_even_le (x : ℚ) (N : ℤ) (h : |x| ≤ (N : ℚ)) :
    |round_half_even x| ≤ N := by
  have h1 := abs_le.1 h
  have h2 := round_half_even_le x N h1.2
  have h3 := le_round_half_even x (-N) (by push_cast; exact h1.1)
  exact abs_le.2 ⟨h3, h2⟩

theorem le_abs_round_half_even (x : ℚ) (N : ℤ) (h : (N : ℚ) ≤ |x|) :
    N ≤ |round_half_even x| := by
  rcases le_total 0 x with hx | hx
  · rw [abs_of_nonneg hx] at h
    exact le_trans (le_round_half_even x N h) (le_abs_self _)
  · rw [abs_of_nonpos hx] at h
    have h2 := round_half_even_le x (-N) (by push_cast; linarith)
    have h3 := neg_abs_le (round_half_even x)
    omega

/-- A rounding is a binary64 number. -/
theorem round64_representable {q μ : ℚ} (h : round64 q = some μ) : Representable μ := by
  by_cases hq : q = 0
  · subst hq
    rw [round64_zero] at h
    rw [← Option.some.inj h]
    exact ⟨0, 0, by norm_num, by norm_num, by norm_num, by norm_num⟩
  have hpos : 0 < |q| := abs_pos.2 hq
  have he1 : (2 : ℚ) ^ Int.log 2 |q| ≤ |q| := by
    have := Int.zpow_log_le_self (b := 2) (r := |q|) (by norm_num) hpos
    exact_mod_cast this
  have he2 : |q| < (2 : ℚ) ^ (Int.log 2 |q| + 1) := by
    have := Int.lt_zpow_succ_log_self (b := 2) (by norm_num) |q|
    exact_mod_cast this
  have hk1 : -1074 ≤ quantum q := quantum_ge q
  have hk2 : Int.log 2 |q| - 52 ≤ quantum q := by
    unfold quantum
    have := le_max_left (Int.log 2 |q|) (-1022)
    omega
  have hk3 : quantum q = -1074 ∨ quantum q = Int.log 2 |q| - 52 := by
    unfold quantum
    rcases le_total (Int.log 2 |q|) (-1022) with hc | hc
    · left
      rw [max_eq_right hc]
      norm_num
    · right
      rw [max_eq_left hc]
  unfold round64 at h
  split_ifs at h with hlt
  rw [← Option.some.inj h]
  generalize hk : quantum q = k at hk1 hk2 hk3 hlt
  generalize hm : round_half_even (q / 2 ^ k) = m at hlt
  have hkpos := two_zpow_pos k
  -- the scaled value is below `2 ^ 53`
  have hx53 : |q / 2 ^ k| ≤ (((2 : ℤ) ^ 53 : ℤ) : ℚ) := by
    rw [abs_div, abs_of_pos hkpos, div_le_iff₀ hkpos]
    have h1 : (((2 : ℤ) ^ 53 : ℤ) : ℚ) * 2 ^ k = 2 ^ (53 + k) := by
      rw [zpow_add₀ (by norm_num : (2 : ℚ) ≠ 0)]
      norm_num
    rw [h1]
    exact le_trans he2.le (zpow_le_zpow_right₀ (by norm_num) (by omega))
  have hm53 : |m| ≤ 2 ^ 53 := by
    rw [← hm]
    exact abs_round_half_even_le _ _ hx53
  have hμ : |(m : ℚ) * 2 ^ k| = ((|m| : ℤ) : ℚ) * 2 ^ k := by
    rw [abs_mul, abs_of_pos hkpos, Int.cast_abs]
  by_cases hm0 : m = 0
  · rw [hm0]
    exact ⟨0, 0, by norm_num, by norm_num, by norm_num, by norm_num⟩
  have hm1 : 1 ≤ |m| := Int.one_le_abs hm0
  -- the exponent of the unit stays below `2 ^ 1024`
  have hk971 : k ≤ 971 := by
    rcases hk3 with hk3 | hk3
    · omega
    · -- normal range: the scaled value reaches `2 ^ 52`
      have hx52 : (((2 : ℤ) ^ 52 : ℤ) : ℚ) ≤ |q / 2 ^ k| := by
        rw [abs_div, abs_of_pos hkpos, le_div_iff₀ hkpos]
        have h1 : (((2 : ℤ) ^ 52 : ℤ) : ℚ) * 2 ^ k = 2 ^ (52 + k) := by
          rw [zpow_add₀ (by norm_num : (2 : ℚ) ≠ 0)]
          norm_num
        rw [h1]
        exact le_trans (zpow_le_zpow_right₀ (by norm_num) (by omega)) he1
      have hm52 : (2 : ℤ) ^ 52 ≤ |m| := by
        rw [← hm]
        exact le_abs_round_half_even _ _ hx52
      by_contra hc
      have hk972 : 972 ≤ k := by omega
      have h2 : (2 : ℚ) ^ (1024 : ℤ) ≤ ((|m| : ℤ) : ℚ) * 2 ^ k := by
        have h3 : (2 : ℚ) ^ (1024 : ℤ) = (((2 : ℤ) ^ 52 : ℤ) : ℚ) * 2 ^ (972 : ℤ) := by
          norm_num
        rw [h3]
        exact mul_le_mul (by exact_mod_cast hm52) (zpow_le_zpow_right₀ (by norm_num) hk972)
          (two_zpow_pos _).le (by positivity)
      rw [hμ] at hlt
      linarith
  by_cases hlt53 : |m| < 2 ^ 53
  · exact ⟨m, k, hlt53, hk1, hk971, rfl⟩
  · have heq : |m| = 2 ^ 53 := le_antisymm hm53 (not_lt.1 hlt53)
    have hk970 : k + 1 ≤ 971 := by
      by_contra hc
      have hk971b : 971 ≤ k := by omega
      have h2 : (2 : ℚ) ^ (1024 : ℤ) ≤ ((|m| : ℤ) : ℚ) * 2 ^ k := by
        have h3 : (2 : ℚ) ^ (1024 : ℤ) = (((2 : ℤ) ^ 53 : ℤ) : ℚ) * 2 ^ (971 : ℤ) := by
          norm_num
        rw [h3, heq]
        exact mul_le_mul_of_nonneg_left (zpow_le_zpow_right₀ (by norm_num) hk971b)
          (by positivity)
      rw [hμ] at hlt
      linarith
    rcases (abs_eq (by norm_num : (0 : ℤ) ≤ 2 ^ 53)).1 heq with h1 | h1
    · refine ⟨2 ^ 52, k + 1, by norm_num, by omega, hk970, ?_⟩
      rw [h1, zpow_add₀ (by norm_num : (2 : ℚ) ≠ 0), zpow_one]
      push_cast
      ring
    · refine ⟨-2 ^ 52, k + 1, by norm_num, by omega, hk970, ?_⟩
      rw [h1, zpow_add₀ (by norm_num : (2 : ℚ) ≠ 0), zpow_one]
      push_cast
      ring

theorem getline_length {stream line rest : List CChar}
    (h : getline stream = some (line, rest)) : rest.length < stream.length := by
  cases stream with
  | nil => simp [getline] at h
  | cons c s =>
    simp only [getline, Option.some.injEq, Prod.mk.injEq] at h
    rw [← h.2, List.length_drop]
    have := (List.dropWhile_sublist (fun c => decide (c ≠ newline)) (l := c :: s)).length_le
    simp only [List.length_cons] at this ⊢
    omega


theorem getline_nil : getline [] = none := rfl

theorem getline_cons (c : CChar) (s : List CChar) :
    getline (c :: s) =
      some ((c :: s).takeWhile (fun c => c ≠ newline),
            ((c :: s).dropWhile (fun c => c ≠ newline)).drop 1) := rfl

theorem read_lines_nil : read_lines [] = [] := by
  rw [read_lines]
  split
  · rfl
  · rename_i h
    simp [getline] at h

theorem read_lines_cons (c : CChar) (s : List CChar) :
    read_lines (c :: s) =
      (c :: s).takeWhile (fun c => c ≠ newline) ::
        read_lines (((c :: s).dropWhile (fun c => c ≠ newline)).drop 1) := by
  rw [read_lines]
  split
  · rename_i h
    simp [getline] at h
  · rename_i line rest h
    rw [getline_cons, Option.some.injEq, Prod.mk.injEq] at h
    rw [h.1, h.2]

theorem read_loop_nil (table : Table) : read_loop [] table = table := by
  rw [read_loop]
  split
  · rfl
  · rename_i h
    simp [getline] at h

theorem read_loop_cons (c : CChar) (s : List CChar) (table : Table) :
    read_loop (c :: s) table =
      read_loop (((c :: s).dropWhile (fun c => c ≠ newline)).drop 1)
        (count_line table ((c :: s).takeWhile (fun c => c ≠ newline))) := by
  rw [read_loop]
  split
  · rename_i h
    simp [getline] at h
  · rename_i line rest h
    rw [getline_cons, Option.some.injEq, Prod.mk.injEq] at h
    rw [h.1, h.2]

/-- Splitting at the first delimiter loses nothing but the delimiter. -/
theorem filter_split (p : CChar → Bool) (l : List CChar) :
    l.filter p = l.takeWhile p ++ ((l.dropWhile p).drop 1).filter p := by
  induction l with
  | nil => rfl
  | cons a l ih =>
    by_cases h : p a = true
    · simp only [List.filter_cons, List.takeWhile_cons, List.dropWhile_cons, h, if_true,
        List.cons_append]
      rw [ih]
    · simp [List.filter_cons, List.takeWhile_cons, List.dropWhile_cons, h]

/-- The lines read, put end to end, are the characters of the file other
than the line terminators, in order. -/
theorem read_lines_flatten : ∀ stream : List CChar,
    (read_lines stream).flatten = stream.filter (fun c => c ≠ newline)
  | [] => by simp [read_lines_nil]
  | c :: s => by
    rw [read_lines_cons, List.flatten_cons, read_lines_flatten]
    exact (filter_split _ (c :: s)).symm
termination_by stream => stream.length
decreasing_by exact getline_length (getline_cons c s)

/-- The read loop counts line after line. -/
theorem read_loop_eq_foldl : ∀ (stream : List CChar) (table : Table),
    read_loop stream table = (read_lines stream).foldl count_line table
  | [], table => by simp [read_lines_nil, read_loop_nil]
  | c :: s, table => by
    rw [read_loop_cons, read_lines_cons, List.foldl_cons, read_loop_eq_foldl]
termination_by stream => stream.length
decreasing_by exact getline_length (getline_cons c s)

theorem foldl_count_line (lines : List (List CChar)) (table : Table) :
    lines.foldl count_line table = count_line table lines.flatten := by
  induction lines generalizing table with
  | nil => rfl
  | cons l ls ih =>
    rw [List.foldl_cons, ih, List.flatten_cons]
    simp only [count_line, List.foldl_append]

/-- The read loop increments once for every character that is not a line
terminator, in file order. -/
theorem read_loop_eq (stream : List CChar) (table : Table) :
    read_loop stream table = count_line table (stream.filter (fun c => c ≠ newline)) := by
  rw [read_loop_eq_foldl, foldl_count_line, read_lines_flatten]

/-! ## The table -/

theorem find?_increment_self (t : Table) (c : CChar) :
    (increment t c).find? c = some (((t.find? c).getD 0 + 1) % UINT_MOD) := by
  induction t with
  | nil => simp [increment, Table.find?]
  | cons e t ih =>
    obtain ⟨k, v⟩ := e
    by_cases h : k = c
    · simp [increment, Table.find?, h]
    · simp [increment, Table.find?, h, ih]

theorem find?_increment_ne (t : Table) {c d : CChar} (h : d ≠ c) :
    (increment t c).find? d = t.find? d := by
  induction t with
  | nil => simp [increment, Table.find?, Ne.symm h]
  | cons e t ih =>
    obtain ⟨k, v⟩ := e
    by_cases hk : k = c
    · subst hk
      simp [increment, Table.find?, Ne.symm h]
    · by_cases hd : k = d
      · subst hd
        simp [increment, Table.find?, hk]
      · simp [increment, Table.find?, hk, hd, ih]

theorem find?_eq_none_iff (t : Table) (c : CChar) : t.find? c = none ↔ c ∉ t.keys := by
  induction t with
  | nil => simp [Table.find?, Table.keys]
  | cons e t ih =>
    obtain ⟨k, v⟩ := e
    by_cases h : k = c
    · simp [Table.find?, Table.keys, h]
    · have ih2 : Table.find? t c = none ↔ c ∉ List.map Prod.fst t := ih
      simp [Table.find?, Table.keys, h, ih2, Ne.symm h]

theorem keys_increment (t : Table) (c : CChar) :
    (increment t c).keys = if c ∈ t.keys then t.keys else t.keys ++ [c] := by
  induction t with
  | nil => simp [increment, Table.keys]
  | cons e t ih =>
    obtain ⟨k, v⟩ := e
    have ih2 : List.map Prod.fst (increment t c) =
        if c ∈ List.map Prod.fst t then List.map Prod.fst t else List.map Prod.fst t ++ [c] := ih
    by_cases h : k = c
    · simp [increment, Table.keys, h]
    · have hne : ¬ c = k := fun hck => h hck.symm
      by_cases hm : c ∈ List.map Prod.fst t
      · simp [increment, Table.keys, h, ih2, hm]
      · simp [increment, Table.keys, h, ih2, hm, hne]

theorem mem_keys_increment (t : Table) (c d : CChar) :
    d ∈ (increment t c).keys ↔ d = c ∨ d ∈ t.keys := by
  rw [keys_increment]
  by_cases h : c ∈ t.keys
  · rw [if_pos h]
    constructor
    · exact Or.inr
    · rintro (rfl | hd)
      · exact h
      · exact hd
  · rw [if_neg h, List.mem_append, List.mem_singleton]
    exact Or.comm

theorem nodup_keys_increment (t : Table) (c : CChar) (h : t.keys.Nodup) :
    (increment t c).keys.Nodup := by
  rw [keys_increment]
  by_cases hc : c ∈ t.keys
  · rw [if_pos hc]
    exact h
  · rw [if_neg hc]
    exact List.Nodup.append h (List.nodup_singleton c) (by simpa using hc)

theorem total_increment (t : Table) (c : CChar)
    (h : (t.find? c).getD 0 + 1 < UINT_MOD) : (increment t c).total = t.total + 1 := by
  induction t with
  | nil => simp [increment, Table.total, UINT_MOD]
  | cons e t ih =>
    obtain ⟨k, v⟩ := e
    by_cases hk : k = c
    · simp only [Table.find?, hk, if_true, Option.getD_some] at h
      simp only [increment, hk, if_true, Table.total, List.map_cons, List.sum_cons,
        Nat.mod_eq_of_lt h]
      omega
    · simp only [Table.find?, hk, if_false] at h
      have ih2 := ih h
      simp only [Table.total] at ih2
      simp only [increment, hk, if_false, Table.total, List.map_cons, List.sum_cons, ih2]
      omega

theorem find?_count_line (l : List CChar) (t : Table) (c : CChar) :
    (count_line t l).find? c =
      if l.count c = 0 then t.find? c
      else some (((t.find? c).getD 0 + l.count c) % UINT_MOD) := by
  induction l generalizing t with
  | nil => simp [count_line]
  | cons a l ih =>
    have ih2 := ih (increment t a)
    simp only [count_line, List.foldl_cons] at ih2 ⊢
    rw [ih2]
    by_cases ha : a = c
    · subst ha
      rw [find?_increment_self, List.count_cons_self]
      by_cases h0 : List.count a l = 0
      · simp [h0]
      · simp only [h0, if_false, Option.getD_some, Nat.succ_ne_zero]
        congr 1
        rw [Nat.mod_add_mod]
        congr 1
        omega
    · rw [find?_increment_ne t (Ne.symm ha), List.count_cons_of_ne (Ne.symm ha)]

theorem mem_keys_count_line (l : List CChar) (t : Table) (d : CChar) :
    d ∈ (count_line t l).keys ↔ d ∈ l ∨ d ∈ t.keys := by
  induction l generalizing t with
  | nil => simp [count_line]
  | cons a l ih =>
    have ih2 := ih (increment t a)
    simp only [count_line, List.foldl_cons] at ih2 ⊢
    rw [ih2, mem_keys_increment, List.mem_cons]
    tauto

theorem nodup_keys_count_line (l : List CChar) (t : Table) (h : t.keys.Nodup) :
    (count_line t l).keys.Nodup := by
  induction l generalizing t with
  | nil => exact h
  | cons a l ih => exact ih (increment t a) (nodup_keys_increment t a h)

theorem total_count_line (l : List CChar) (t : Table)
    (h : ∀ c, (t.find? c).getD 0 + l.count c < UINT_MOD) :
    (count_line t l).total = t.total + l.length := by
  induction l generalizing t with
  | nil => simp [count_line]
  | cons a l ih =>
    have ha : (t.find? a).getD 0 + 1 < UINT_MOD := by
      have := h a
      rw [List.count_cons_self] at this
      omega
    have ih2 := ih (increment t a) (by
      intro c
      by_cases hc : a = c
      · subst hc
        have := h a
        rw [List.count_cons_self] at this
        rw [find?_increment_self, Option.getD_some, Nat.mod_eq_of_lt ha]
        omega
      · have := h c
        rw [List.count_cons_of_ne (Ne.symm hc)] at this
        rw [find?_increment_ne t (Ne.symm hc)]
        exact this)
    simp only [count_line, List.foldl_cons, List.length_cons] at ih2 ⊢
    rw [ih2, total_increment t a ha]
    omega

theorem count_line_replicate_cons (c : CChar) (n k : Nat) :
    count_line [(c, k % UINT_MOD)] (List.replicate n c) = [(c, (k + n) % UINT_MOD)] := by
  induction n generalizing k with
  | zero => rfl
  | succ n ih =>
    have h := ih (k + 1)
    simp only [count_line, List.replicate_succ, List.foldl_cons, increment, if_true] at h ⊢
    rw [Nat.mod_add_mod, h, Nat.add_right_comm k 1 n, Nat.add_assoc k n 1]

/-- Counting `n ≥ 1` copies of one character into the empty table. -/
theorem count_line_replicate (c : CChar) (n : Nat) (hn : 1 ≤ n) :
    count_line [] (List.replicate n c) = [(c, n % UINT_MOD)] := by
  obtain ⟨m, rfl⟩ : ∃ m, n = m + 1 := ⟨n - 1, by omega⟩
  have h := count_line_replicate_cons c m (0 + 1)
  simp only [count_line, List.replicate_succ, List.foldl_cons, increment] at h ⊢
  rw [h, Nat.zero_add, Nat.add_comm 1 m]

/-! ## The call as a whole -/

/-- A file that opens yields the table built by the read loop. -/
theorem returns_table (order : Table → List (CChar × Nat)) (content : List CChar) :
    ReturnsTable order content (count_line [] (content.filter (fun c => c ≠ newline))) := by
  constructor
  · simp [get_character_frequencies, read_loop_eq]
  · intro verbose t h
    cases verbose with
    | false =>
      simp only [get_character_frequencies, read_loop_eq, Outcome.table?, Bool.false_eq_true,
        if_false, Option.some.injEq] at h
      exact h.symm
    | true =>
      simp only [get_character_frequencies, read_loop_eq, if_true] at h
      split at h
      · simp [Outcome.table?] at h
      · simp only [Outcome.table?, Option.some.injEq] at h
        exact h.symm

theorem occurrences_eq (c : CChar) (content : List CChar) :
    occurrences c content = (content.filter (fun c => c ≠ newline)).count c := by
  rw [occurrences, ← List.count_flatten, read_lines_flatten]

theorem mem_lines_iff (c : CChar) (content : List CChar) :
    (∃ line ∈ read_lines content, c ∈ line) ↔ c ∈ content.filter (fun c => c ≠ newline) := by
  rw [← read_lines_flatten, List.mem_flatten]

/-- When no counted character occurs `2 ^ 32` times, no counter wraps. -/
theorem no_wrap_of_bounded (content : List CChar)
    (h : ∀ c : CChar, c ≠ newline → content.count c < UINT_MOD) (c : CChar) :
    (Table.find? [] c).getD 0 + (content.filter (fun c => c ≠ newline)).count c
      < UINT_MOD := by
  have hle := (List.filter_sublist (p := fun c => decide (c ≠ newline)) content).count_le c
  by_cases hc : c = newline
  · have h0 : (content.filter (fun c => c ≠ newline)).count c = 0 := by
      rw [List.count_eq_zero, List.mem_filter]
      rintro ⟨_, h2⟩
      simp [hc] at h2
    rw [h0]
    simp [Table.find?, UINT_MOD]
  · have := h c hc
    simp only [Table.find?, Option.getD_none, Nat.zero_add]
    omega

/-! ## Claims about the returned table -/

/-- C1 (as amended): for a file that opens and in which no character other
than the line terminator occurs `2 ^ 32` times or more, the sum of the counts
of the returned table is the number of characters of the file that are not
line terminators, which is the total length of the lines read. -/
theorem total_eq_counted_characters (order : Table → List (CChar × Nat))
    (content : List CChar)
    (h : ∀ c : CChar, c ≠ newline → content.count c < UINT_MOD) :
    ∃ table, ReturnsTable order content table ∧
      table.total = (content.filter (fun c => c ≠ newline)).length ∧
      table.total = ((read_lines content).map List.length).sum := by
  have hfit := no_wrap_of_bounded content h
  refine ⟨_, returns_table order content, ?_, ?_⟩
  · rw [total_count_line _ _ hfit]
    simp [Table.total]
  · rw [← List.length_flatten, read_lines_flatten, total_count_line _ _ hfit]
    simp [Table.total]

/-- C1, witness: the file `"ab\na"`. -/
theorem total_eq_counted_characters_witness :
    ∃ table, ReturnsTable (fun t => t) [97, 98, 10, 97] table ∧
      table.total = ([97, 98, 10, 97].filter (fun c => c ≠ newline)).length ∧
      table.total = ((read_lines [97, 98, 10, 97]).map List.length).sum :=
  total_eq_counted_characters (fun t => t) [97, 98, 10, 97] (by
    intro c _
    have h4 : List.count c [97, 98, 10, 97] ≤ [(97 : CChar), 98, 10, 97].length :=
      List.count_le_length c _
    exact Nat.lt_of_le_of_lt h4 (by decide))

/-- C1, counterexample: a file made of `2 ^ 32` letters `a`.  The counter of
`a` wraps around to `0`, so the counts sum to `0` while the file has
`4294967296` characters that are not line terminators. -/
theorem total_wraps_counterexample :
    get_character_frequencies (fun t => t)
        (some (List.replicate 4294967296 (97 : CChar))) false
      = Outcome.returned [(97, 0)] [] none ∧
    Table.total [(97, 0)] = 0 ∧
    ((List.replicate 4294967296 (97 : CChar)).filter (fun c => c ≠ newline)).length
      = 4294967296 := by
  have hf : (List.replicate 4294967296 (97 : CChar)).filter (fun c => c ≠ newline)
      = List.replicate 4294967296 (97 : CChar) :=
    List.filter_replicate_of_pos (by decide)
  refine ⟨?_, by decide, ?_⟩
  · rw [(returns_table _ _).1, hf, count_line_replicate _ _ (by decide)]
    rfl
  · rw [hf, List.length_replicate]

/-- C2 (as amended): for a file that opens and every character `c`, `c` is a
key of the returned table exactly when it occurs in some line, the keys are
distinct, and the table maps `c` to the number of its occurrences across all
lines reduced modulo `2 ^ 32`, hence to exactly that number when `c` occurs
fewer than `2 ^ 32` times. -/
theorem table_counts_occurrences (order : Table → List (CChar × Nat))
    (content : List CChar) (c : CChar) :
    ∃ table, ReturnsTable order content table ∧
      (c ∈ table.keys ↔ ∃ line ∈ read_lines content, c ∈ line) ∧
      table.keys.Nodup ∧
      table.find? c =
        (if occurrences c content = 0 then none
         else some (occurrences c content % UINT_MOD)) ∧
      (occurrences c content < UINT_MOD →
        table.find? c =
          (if occurrences c content = 0 then none else some (occurrences c content))) := by
  have hfind : (count_line [] (content.filter (fun c => c ≠ newline))).find? c =
      (if occurrences c content = 0 then none
       else some (occurrences c content % UINT_MOD)) := by
    rw [find?_count_line, occurrences_eq]
    simp [Table.find?]
  refine ⟨_, returns_table order content, ?_, ?_, hfind, ?_⟩
  · rw [mem_keys_count_line, mem_lines_iff]
    simp [Table.keys]
  · exact nodup_keys_count_line _ [] List.nodup_nil
  · intro hlt
    rw [hfind, Nat.mod_eq_of_lt hlt]

/-- C2, witness: the letter `a` in the file `"ab\na"` is counted twice. -/
theorem table_counts_occurrences_witness :
    ∃ table, ReturnsTable (fun t => t) [97, 98, 10, 97] table ∧
      table.find? 97 = some 2 := by
  obtain ⟨table, hret, _, _, _, hexact⟩ :=
    table_counts_occurrences (fun t => t) [97, 98, 10, 97] 97
  have hocc : occurrences 97 [97, 98, 10, 97] = 2 := by
    rw [occurrences_eq]
    decide
  rw [hocc] at hexact
  exact ⟨table, hret, hexact (by decide)⟩

/-- C2, counterexample: in a file made of `2 ^ 32` letters `a` the letter
occurs `4294967296` times in the one line read, and the returned table maps
it to `0`. -/
theorem count_wraps_counterexample :
    get_character_frequencies (fun t => t)
        (some (List.replicate 4294967296 (97 : CChar))) false
      = Outcome.returned [(97, 0)] [] none ∧
    Table.find? [(97, 0)] 97 = some 0 ∧
    occurrences 97 (List.replicate 4294967296 (97 : CChar)) = 4294967296 := by
  have hf : (List.replicate 4294967296 (97 : CChar)).filter (fun c => c ≠ newline)
      = List.replicate 4294967296 (97 : CChar) :=
    List.filter_replicate_of_pos (by decide)
  refine ⟨?_, by decide, ?_⟩
  · rw [(returns_table _ _).1, hf, count_line_replicate _ _ (by decide)]
    rfl
  · rw [occurrences_eq, hf, List.count_replicate_self]

/-- C3: when the file cannot be opened the call returns, under either value
of `verbose` and whatever the iteration order, the empty table; the diagnostic
is written to the error stream and no report is produced. -/
theorem open_failure_returns_empty (order : Table → List (CChar × Nat)) (verbose : Bool) :
    get_character_frequencies order none verbose
      = Outcome.returned [] ["Error opening file!\n"] none ∧
    (get_character_frequencies order none verbose).table? = some [] ∧
    ([] : Table).length = 0 :=
  ⟨rfl, rfl, rfl⟩

/-- For the empty file, which opens, the call with `verbose = false` returns
the empty table, and no call returns another table. -/
theorem empty_file_empty_table (order : Table → List (CChar × Nat)) :
    ReturnsTable order [] [] ∧ ([] : Table).length = 0 :=
  ⟨returns_table order [], rfl⟩

/-- C7 (as amended): for every character `c` other than the line terminator
and every `n` with `1 ≤ n < 2 ^ 32`, the table returned for the file made of
`n` copies of `c` has exactly one entry, with key `c` and count `n`. -/
theorem repeated_character_single_entry (order : Table → List (CChar × Nat))
    (c : CChar) (n : Nat) (hc : c ≠ newline) (h1 : 1 ≤ n) (h2 : n < UINT_MOD) :
    ReturnsTable order (List.replicate n c) [(c, n)] ∧
      Table.keys [(c, n)] = [c] ∧ Table.find? [(c, n)] c = some n := by
  have hf : (List.replicate n c).filter (fun c => c ≠ newline) = List.replicate n c :=
    List.filter_replicate_of_pos (by simpa using hc)
  have h := returns_table order (List.replicate n c)
  rw [hf, count_line_replicate c n h1, Nat.mod_eq_of_lt h2] at h
  exact ⟨h, rfl, by simp [Table.find?]⟩

/-- C7, witness: the file `"zzz"`. -/
theorem repeated_character_single_entry_witness :
    ReturnsTable (fun t => t) (List.replicate 3 122) [(122, 3)] ∧
      Table.keys [(122, 3)] = [122] ∧ Table.find? [(122, 3)] 122 = some 3 :=
  repeated_character_single_entry (fun t => t) 122 3 (by decide) (by decide) (by decide)

/-- C7, counterexample: the file made of one line terminator yields the empty
table, not a table with one entry; and the file made of `2 ^ 32` letters `a`
yields the count `0`, not `4294967296`. -/
theorem repeated_character_counterexample :
    get_character_frequencies (fun t => t) (some (List.replicate 1 newline)) false
      = Outcome.returned [] [] none ∧
    get_character_frequencies (fun t => t)
        (some (List.replicate 4294967296 (97 : CChar))) false
      = Outcome.returned [(97, 0)] [] none := by
  constructor
  · rw [(returns_table _ _).1]
    rfl
  · have hf : (List.replicate 4294967296 (97 : CChar)).filter (fun c => c ≠ newline)
        = List.replicate 4294967296 (97 : CChar) :=
      List.filter_replicate_of_pos (by decide)
    rw [(returns_table _ _).1, hf, count_line_replicate _ _ (by decide)]
    rfl

/-- C8: for a file that opens, the returned table has no entry for the line
terminator, wherever and however often it occurs in the file. -/
theorem newline_never_counted (order : Table → List (CChar × Nat))
    (content : List CChar) :
    ∃ table, ReturnsTable order content table ∧
      newline ∉ table.keys ∧ table.find? newline = none := by
  have hk : newline ∉ (count_line [] (content.filter (fun c => c ≠ newline))).keys := by
    rw [mem_keys_count_line, List.mem_filter]
    simp [Table.keys]
  exact ⟨_, returns_table order content, hk, (find?_eq_none_iff _ _).2 hk⟩

/-! ## The verbose report -/

/-- The fields of a report that was produced. -/
theorem verbose_report_some {entries : List (CChar × Nat)} {r : Report}
    (h : verbose_report entries = some r) :
    r.dump = entries ∧
    r.most_common = (scan entries).most_common ∧ r.max_freq = (scan entries).max_freq ∧
    r.least_common = (scan entries).least_common ∧ r.min_freq = (scan entries).min_freq ∧
    r.mean = compute_mean (collect_non_space entries) ∧
    compute_median ((collect_non_space entries).insertionSort (fun a b => a ≤ b))
      = some r.median ∧
    r.variance = compute_variance ((collect_non_space entries).insertionSort (fun a b => a ≤ b))
      (compute_mean (collect_non_space entries)) := by
  simp only [verbose_report] at h
  split at h
  · simp at h
  · rename_i median hm
    simp only [Option.some.injEq] at h
    subst h
    exact ⟨rfl, rfl, rfl, rfl, rfl, rfl, hm, rfl⟩

/-- The standard deviation of a report is the square root of its variance. -/
theorem verbose_report_std_dev {entries : List (CChar × Nat)} {r : Report}
    (h : verbose_report entries = some r) : r.std_dev = Double.sqrt r.variance := by
  simp only [verbose_report] at h
  split at h
  · simp at h
  · simp only [Option.some.injEq] at h
    subst h
    rfl

theorem Double.of_nat_eq (n : Nat) (h : n < 2 ^ 53) : Double.of_nat n = some (n : ℚ) :=
  round64_natCast n h

theorem Double.add_some (a b : ℚ) : Double.add (some a) (some b) = round64 (a + b) := rfl

theorem Double.sub_some (a b : ℚ) : Double.sub (some a) (some b) = round64 (a - b) := rfl

theorem Double.mul_some (a b : ℚ) : Double.mul (some a) (some b) = round64 (a * b) := rfl

theorem Double.div_some (a b : ℚ) (hb : b ≠ 0) :
    Double.div (some a) (some b) = round64 (a / b) := by
  simp [Double.div, hb]

theorem Double.div_zero (x : Double) : Double.div x (some 0) = none := by
  cases x <;> simp [Double.div]

/-- While the running sum stays below `2 ^ 53`, the loop `mean += f` adds
without rounding. -/
theorem foldl_add_exact (l : List Nat) (a : Nat) (h : a + l.sum < 2 ^ 53) :
    l.foldl (fun (mean : Double) (f : Nat) => Double.add mean (Double.of_nat f))
        (some (a : ℚ))
      = some ((a + l.sum : Nat) : ℚ) := by
  induction l generalizing a with
  | nil => simp
  | cons f l ih =>
    rw [List.sum_cons] at h
    rw [List.foldl_cons, Double.of_nat_eq f (by omega), Double.add_some]
    have hcast : (a : ℚ) + (f : ℚ) = ((a + f : Nat) : ℚ) := by push_cast; rfl
    rw [hcast, round64_natCast (a + f) (by omega), ih (a + f) (by omega), List.sum_cons]
    congr 2
    omega

/-- A vector of at most 256 `unsigned int` counts sums to less than `2 ^ 53`. -/
theorem sum_lt_of_fit (l : List Nat) (hlen : l.length ≤ 256) (hfit : ∀ f ∈ l, f < UINT_MOD) :
    l.sum < 2 ^ 53 ∧ l.sum ≤ l.length * 2 ^ 32 := by
  have h1 : l.sum ≤ l.length • 2 ^ 32 :=
    List.sum_le_card_nsmul l (2 ^ 32) (fun f hf => by
      have := hfit f hf
      simp only [UINT_MOD] at this
      omega)
  rw [smul_eq_mul] at h1
  refine ⟨?_, h1⟩
  have h2 : l.length * 2 ^ 32 ≤ 256 * 2 ^ 32 := Nat.mul_le_mul_right _ hlen
  have h3 : 256 * 2 ^ 32 < 2 ^ 53 := by norm_num
  omega

/-- The mean of a non-empty vector is the rounding of its exact sum divided by
its size: the sum itself is accumulated without rounding. -/
theorem compute_mean_eq (l : List Nat) (h : l.length ≠ 0) (hsum : l.sum < 2 ^ 53)
    (hlen : l.length < 2 ^ 53) :
    compute_mean l = round64 (((l.sum : Nat) : ℚ) / ((l.length : Nat) : ℚ)) := by
  have h0 := foldl_add_exact l 0 (by omega)
  simp only [Nat.cast_zero, Nat.zero_add] at h0
  rw [compute_mean, h0, Double.of_nat_eq _ hlen,
    Double.div_some _ _ (by exact_mod_cast h)]

theorem compute_mean_nil : compute_mean [] = none := by
  simp only [compute_mean, List.foldl_nil, List.length_nil]
  rw [Double.of_nat_eq 0 (by norm_num)]
  simp [Double.div]

theorem representable_zero : Representable 0 :=
  ⟨0, 0, by norm_num, by norm_num, by norm_num, by norm_num⟩

theorem sqrt64_sq_nonneg (s : ℚ) (hs : 0 ≤ s) (h : Representable s) :
    sqrt64 (s * s) = some s := by
  rcases hs.lt_or_eq with hpos | hzero
  · exact sqrt64_sq s hpos h
  · rw [← hzero, mul_zero, sqrt64_zero]

/-- While no operation rounds, the loop of lines 95-97 adds the exact squared
deviations. -/
theorem foldl_var_exact (μ : ℚ) (l : List Nat) (s : ℚ)
    (hf : ∀ f ∈ l, f < 2 ^ 53 ∧ Representable ((f : ℚ) - μ) ∧
      Representable (((f : ℚ) - μ) * ((f : ℚ) - μ)))
    (hs : ∀ i, 1 ≤ i → i ≤ l.length → Representable
      (s + ((l.take i).map (fun f : Nat => ((f : ℚ) - μ) * ((f : ℚ) - μ))).sum)) :
    l.foldl
        (fun (variance : Double) (f : Nat) =>
          Double.add variance
            (Double.mul (Double.sub (Double.of_nat f) (some μ))
              (Double.sub (Double.of_nat f) (some μ))))
        (some s)
      = some (s + (l.map (fun f : Nat => ((f : ℚ) - μ) * ((f : ℚ) - μ))).sum) := by
  induction l generalizing s with
  | nil => simp
  | cons f l ih =>
    obtain ⟨hf1, hf2, hf3⟩ := hf f (List.mem_cons_self f l)
    have h1 := hs 1 (le_refl 1) (by simp)
    simp only [List.take_succ_cons, List.take_zero, List.map_cons, List.map_nil,
      List.sum_cons, List.sum_nil, add_zero] at h1
    rw [List.foldl_cons, Double.of_nat_eq f hf1, Double.sub_some,
      round64_of_representable _ hf2, Double.mul_some, round64_of_representable _ hf3,
      Double.add_some, round64_of_representable _ h1,
      ih _ (fun g hg => hf g (List.mem_cons_of_mem f hg)) (fun i hi1 hi2 => by
        have := hs (i + 1) (by omega) (by simp only [List.length_cons]; omega)
        simp only [List.take_succ_cons, List.map_cons, List.sum_cons] at this
        rw [add_assoc]
        exact this)]
    rw [List.map_cons, List.sum_cons, add_assoc]

/-- While no operation rounds, the variance is the exact mean of the squared
deviations. -/
theorem compute_variance_exact (μ : ℚ) (l : List Nat) (hl : l.length ≠ 0)
    (hlen : l.length < 2 ^ 53)
    (hf : ∀ f ∈ l, f < 2 ^ 53 ∧ Representable ((f : ℚ) - μ) ∧
      Representable (((f : ℚ) - μ) * ((f : ℚ) - μ)))
    (hs : ∀ i, 1 ≤ i → i ≤ l.length → Representable
      (((l.take i).map (fun f : Nat => ((f : ℚ) - μ) * ((f : ℚ) - μ))).sum))
    (hv : Representable ((l.map (fun f : Nat => ((f : ℚ) - μ) * ((f : ℚ) - μ))).sum
      / ((l.length : Nat) : ℚ))) :
    compute_variance l (some μ)
      = some ((l.map (fun f : Nat => ((f : ℚ) - μ) * ((f : ℚ) - μ))).sum
          / ((l.length : Nat) : ℚ)) := by
  have h0 := foldl_var_exact μ l 0 hf (fun i hi1 hi2 => by
    rw [zero_add]
    exact hs i hi1 hi2)
  rw [zero_add] at h0
  rw [compute_variance, h0, Double.of_nat_eq _ hlen,
    Double.div_some _ _ (by exact_mod_cast hl), round64_of_representable _ hv]

theorem vector_at_of_lt (v : List Nat) (i : Nat) (h : i < v.length) :
    vector_at v i = some (v.get ⟨i, h⟩) := by
  simp [vector_at, List.getElem?_eq_getElem h]

/-- On a non-empty vector both branches of the median index within bounds. -/
theorem compute_median_isSome (sorted : List Nat) (h : sorted.length ≠ 0) :
    (compute_median sorted).isSome := by
  have hmid : sorted.length / 2 < sorted.length := Nat.div_lt_self (by omega) (by decide)
  unfold compute_median
  by_cases heven : sorted.length % 2 = 0
  · have hlow : (sorted.length / 2 + SIZE_MOD - 1) % SIZE_MOD < sorted.length := by
      have h1 : 1 ≤ sorted.length / 2 := by omega
      have h2 : sorted.length / 2 + SIZE_MOD - 1 = (sorted.length / 2 - 1) + SIZE_MOD := by
        omega
      rw [h2, Nat.add_mod_right]
      exact Nat.lt_of_le_of_lt (Nat.mod_le _ _) (by omega)
    simp only [heven, if_true]
    rw [vector_at_of_lt _ _ hlow, vector_at_of_lt _ _ hmid]
    rfl
  · simp only [heven, if_false]
    rw [vector_at_of_lt _ _ hmid]
    rfl

/-- With at least one non-space entry the verbose block runs to its end. -/
theorem verbose_report_isSome (entries : List (CChar × Nat))
    (h : collect_non_space entries ≠ []) : (verbose_report entries).isSome := by
  have hlen : ((collect_non_space entries).insertionSort (fun a b => a ≤ b)).length ≠ 0 := by
    rw [List.length_insertionSort]
    exact fun h0 => h (List.length_eq_zero.1 h0)
  obtain ⟨m, hm⟩ := Option.isSome_iff_exists.1 (compute_median_isSome _ hlen)
  simp only [verbose_report, hm]
  rfl

/-- For a file with at least one counted character other than the space, the
verbose call returns, with the table of the read loop and a report. -/
theorem verbose_returns (order : Table → List (CChar × Nat)) (horder : ValidOrder order)
    (content : List CChar) (h : ∃ c ∈ content, c ≠ newline ∧ c ≠ space) :
    ∃ report, get_character_frequencies order (some content) true
      = Outcome.returned (read_loop content []) [] (some report) := by
  obtain ⟨c, hc, hnl, hsp⟩ := h
  have hkey : c ∈ (read_loop content []).keys := by
    rw [read_loop_eq, mem_keys_count_line, List.mem_filter]
    exact Or.inl ⟨hc, by simpa using hnl⟩
  obtain ⟨entry, hentry, hfst⟩ := List.mem_map.1 hkey
  have hmem : entry ∈ order (read_loop content []) := (horder _).mem_iff.2 hentry
  have hne : collect_non_space (order (read_loop content [])) ≠ [] := by
    intro h0
    have : entry.2 ∈ collect_non_space (order (read_loop content [])) :=
      List.mem_map.2 ⟨entry, List.mem_filter.2 ⟨hmem, by simpa [hfst] using hsp⟩, rfl⟩
    rw [h0] at this
    exact List.not_mem_nil _ this
  obtain ⟨report, hrep⟩ := Option.isSome_iff_exists.1 (verbose_report_isSome _ hne)
  exact ⟨report, by simp only [get_character_frequencies, hrep, if_true]⟩

/-- C4 (evaluation at the failing input): for the file made of one space the
call with `verbose = false` returns the table `' ' -> 1`, while the call with
`verbose = true` indexes the empty vector `non_space_freqs` and returns no
table. -/
theorem spaces_only_verbose_no_table (order : Table → List (CChar × Nat))
    (horder : ValidOrder order) :
    get_character_frequencies order (some [space]) false
      = Outcome.returned [(space, 1)] [] none ∧
    get_character_frequencies order (some [space]) true = Outcome.undefined_behaviour ∧
    (get_character_frequencies order (some [space]) true).table? = none := by
  have ho : order [(space, 1)] = [(space, 1)] := List.perm_singleton.1 (horder _)
  have hr : read_loop [space] [] = [(space, 1)] := by
    rw [read_loop_eq]
    decide
  have ht : get_character_frequencies order (some [space]) true
      = Outcome.undefined_behaviour := by
    simp only [get_character_frequencies, hr, ho, if_true]
    rfl
  refine ⟨?_, ht, ?_⟩
  · simp only [get_character_frequencies, hr]
    rfl
  · rw [ht]
    rfl

/-- C4, witness: the iteration order that follows the insertion order. -/
theorem spaces_only_verbose_no_table_witness :
    get_character_frequencies (fun t => t) (some [space]) false
      = Outcome.returned [(space, 1)] [] none ∧
    get_character_frequencies (fun t => t) (some [space]) true
      = Outcome.undefined_behaviour ∧
    (get_character_frequencies (fun t => t) (some [space]) true).table? = none :=
  spaces_only_verbose_no_table (fun t => t) (fun t => List.Perm.refl t)

/-- C5 (evaluation at the failing input): for the empty file the call with
`verbose = true` does not complete: `non_space_freqs` is empty, `n = 0` is
even, and the median reads index `n / 2 - 1 = 2 ^ 64 - 1` (and index `0`) of
the empty vector. -/
theorem empty_file_verbose_out_of_bounds (order : Table → List (CChar × Nat))
    (horder : ValidOrder order) :
    get_character_frequencies order (some []) true = Outcome.undefined_behaviour ∧
    collect_non_space (order (read_loop [] [])) = [] ∧
    (([] : List Nat).length / 2 + SIZE_MOD - 1) % SIZE_MOD = 18446744073709551615 ∧
    vector_at [] 18446744073709551615 = none ∧ vector_at [] 0 = none ∧
    compute_mean [] = none := by
  have hr : read_loop [] [] = [] := read_loop_nil []
  have ho : order [] = [] := List.perm_nil.1 (horder _)
  refine ⟨?_, ?_, by decide, rfl, rfl, compute_mean_nil⟩
  · simp only [get_character_frequencies, hr, ho, if_true]
    rfl
  · rw [hr, ho]
    rfl

/-- C5, witness: the iteration order that follows the insertion order. -/
theorem empty_file_verbose_out_of_bounds_witness :
    get_character_frequencies (fun t => t) (some []) true = Outcome.undefined_behaviour :=
  (empty_file_verbose_out_of_bounds (fun t => t) (fun t => List.Perm.refl t)).1

/-- C6 (evaluation at the failing input): the empty file opens and the read
loop leaves the table empty; the call with `verbose = false` returns that empty
table, but the call with `verbose = true` returns no table: with no non-space
entry the median of line 86 reads outside the empty vector before the `return`
of line 105 is reached. -/
theorem empty_file_verbose_no_table (order : Table → List (CChar × Nat))
    (horder : ValidOrder order) :
    read_loop [] [] = [] ∧
    get_character_frequencies order (some []) false = Outcome.returned [] [] none ∧
    get_character_frequencies order (some []) true = Outcome.undefined_behaviour ∧
    (get_character_frequencies order (some []) true).table? = none ∧
    (get_character_frequencies order (some []) true).table? ≠ some [] := by
  have hr : read_loop [] [] = [] := read_loop_nil []
  have ho : order [] = [] := List.perm_nil.1 (horder _)
  have hub : get_character_frequencies order (some []) true = Outcome.undefined_behaviour := by
    simp only [get_character_frequencies, hr, ho, if_true]
    rfl
  refine ⟨hr, (empty_file_empty_table order).1.1, hub, ?_, ?_⟩
  · rw [hub]
    rfl
  · rw [hub]
    simp [Outcome.table?]

/-- C6, witness: the iteration order that follows the insertion order. -/
theorem empty_file_verbose_no_table_witness :
    get_character_frequencies (fun t => t) (some []) false = Outcome.returned [] [] none ∧
    (get_character_frequencies (fun t => t) (some []) true).table? = none :=
  ⟨(empty_file_verbose_no_table (fun t => t) (fun t => List.Perm.refl t)).2.1,
    (empty_file_verbose_no_table (fun t => t) (fun t => List.Perm.refl t)).2.2.2.1⟩

/-! ## The two scenarios -/

/-- C9: for a file whose lines are `"aab"` and `"b "` the returned table is
`a -> 2, b -> 2, ' ' -> 1`, and under every iteration order the verbose report
lists exactly `a` and `b` as most common with 2 times and as least common with
2 times, with mean 2, median 2 and standard deviation 0 (variance 0). -/
theorem scenario_aab_b (order : Table → List (CChar × Nat)) (horder : ValidOrder order)
    (content : List CChar) (hlines : read_lines content = [[97, 97, 98], [98, 32]]) :
    ReturnsTable order content [(97, 2), (98, 2), (32, 1)] ∧
    ∃ report,
      get_character_frequencies order (some content) true
        = Outcome.returned [(97, 2), (98, 2), (32, 1)] [] (some report) ∧
      report.most_common.Perm [97, 98] ∧ report.max_freq = 2 ∧
      report.least_common.Perm [97, 98] ∧ report.min_freq = 2 ∧
      report.mean = some 2 ∧ report.median = some 2 ∧
      report.variance = some 0 ∧ report.std_dev = some 0 := by
  have hr : read_loop content [] = [(97, 2), (98, 2), (32, 1)] := by
    rw [read_loop_eq_foldl, hlines]
    decide
  have hret := returns_table order content
  rw [← read_loop_eq, hr] at hret
  refine ⟨hret, ?_⟩
  have hmem := List.mem_permutations'.2 (horder [(97, 2), (98, 2), (32, 1)])
  generalize hit : order [(97, 2), (98, 2), (32, 1)] = it at hmem
  have hall : ∀ it ∈ List.permutations' [((97 : CChar), 2), (98, 2), (32, 1)],
      (verbose_report it).isSome ∧
      collect_non_space it = [2, 2] ∧
      (scan it).most_common.Perm [97, 98] ∧ (scan it).max_freq = 2 ∧
      (scan it).least_common.Perm [97, 98] ∧ (scan it).min_freq = 2 := by
    decide
  obtain ⟨hsome, hcol, hmost, hmax, hleast, hmin⟩ := hall it hmem
  obtain ⟨report, hrep⟩ := Option.isSome_iff_exists.1 hsome
  obtain ⟨_, h1, h2, h3, h4, h5, h6, h7⟩ := verbose_report_some hrep
  have h8 := verbose_report_std_dev hrep
  have hsorted : List.insertionSort (fun a b => a ≤ b) [2, 2] = [2, 2] := by decide
  have hmean : compute_mean [2, 2] = some 2 := by
    rw [compute_mean_eq _ (by decide) (by norm_num) (by norm_num)]
    have hq : ((([2, 2] : List Nat).sum : Nat) : ℚ) / ((([2, 2] : List Nat).length : Nat) : ℚ)
        = ((2 : Nat) : ℚ) := by norm_num
    rw [hq, round64_natCast 2 (by norm_num)]
    norm_num
  have hmedian : compute_median [2, 2] = some (some 2) := by
    simp [compute_median, vector_at, SIZE_MOD, UINT_MOD]
    norm_num
  have hvar : compute_variance [2, 2] (some 2) = some 0 := by
    rw [compute_variance_exact 2 [2, 2] (by decide) (by norm_num)]
    · norm_num
    · intro f hf
      have hf2 : f = 2 := by simpa using hf
      subst hf2
      exact ⟨by norm_num, ⟨0, 0, by norm_num, by norm_num, by norm_num, by norm_num⟩,
        ⟨0, 0, by norm_num, by norm_num, by norm_num, by norm_num⟩⟩
    · intro i hi1 hi2
      have hi : i = 1 ∨ i = 2 := by
        simp only [List.length_cons, List.length_nil] at hi2
        omega
      rcases hi with rfl | rfl
      · exact ⟨0, 0, by norm_num, by norm_num, by norm_num, by norm_num⟩
      · exact ⟨0, 0, by norm_num, by norm_num, by norm_num, by norm_num⟩
    · exact ⟨0, 0, by norm_num, by norm_num, by norm_num, by norm_num⟩
  rw [hcol, hsorted, hmedian, Option.some.injEq] at h6
  rw [hcol, hsorted, hmean, hvar] at h7
  rw [hcol, hmean] at h5
  have hsd : report.std_dev = some 0 := by
    rw [h8, h7]
    exact sqrt64_zero
  refine ⟨report, ?_, h1 ▸ hmost, h2.trans hmax, h3 ▸ hleast, h4.trans hmin, h5, h6.symm,
    h7, hsd⟩
  simp only [get_character_frequencies, hr, hit, hrep, if_true]

/-- C9, witness: the file `"aab\nb \n"`, iterated in insertion order. -/
theorem scenario_aab_b_witness :
    ReturnsTable (fun t => t) [97, 97, 98, 10, 98, 32, 10] [(97, 2), (98, 2), (32, 1)] ∧
    ∃ report,
      get_character_frequencies (fun t => t) (some [97, 97, 98, 10, 98, 32, 10]) true
        = Outcome.returned [(97, 2), (98, 2), (32, 1)] [] (some report) ∧
      report.most_common.Perm [97, 98] ∧ report.max_freq = 2 ∧
      report.least_common.Perm [97, 98] ∧ report.min_freq = 2 ∧
      report.mean = some 2 ∧ report.median = some 2 ∧
      report.variance = some 0 ∧ report.std_dev = some 0 :=
  scenario_aab_b (fun t => t) (fun t => List.Perm.refl t) [97, 97, 98, 10, 98, 32, 10]
    (by simp [read_lines_cons, read_lines_nil, newline])

/-- C10: for a file whose only line is `"xxy"` the returned table is
`x -> 2, y -> 1`, and under every iteration order the verbose report gives
most common `[x]` with 2 times, least common `[y]` with 1 time, mean 3/2,
median 3/2, variance 1/4 and standard deviation 1/2. -/
theorem scenario_xxy (order : Table → List (CChar × Nat)) (horder : ValidOrder order)
    (content : List CChar) (hlines : read_lines content = [[120, 120, 121]]) :
    ReturnsTable order content [(120, 2), (121, 1)] ∧
    ∃ report,
      get_character_frequencies order (some content) true
        = Outcome.returned [(120, 2), (121, 1)] [] (some report) ∧
      report.most_common = [120] ∧ report.max_freq = 2 ∧
      report.least_common = [121] ∧ report.min_freq = 1 ∧
      report.mean = some (3 / 2) ∧ report.median = some (3 / 2) ∧
      report.variance = some (1 / 4) ∧ report.std_dev = some (1 / 2) := by
  have hr : read_loop content [] = [(120, 2), (121, 1)] := by
    rw [read_loop_eq_foldl, hlines]
    decide
  have hret := returns_table order content
  rw [← read_loop_eq, hr] at hret
  refine ⟨hret, ?_⟩
  have hmem := List.mem_permutations'.2 (horder [(120, 2), (121, 1)])
  generalize hit : order [(120, 2), (121, 1)] = it at hmem
  have hall : ∀ it ∈ List.permutations' [((120 : CChar), 2), (121, 1)],
      (verbose_report it).isSome ∧
      (collect_non_space it).insertionSort (fun a b => a ≤ b) = [1, 2] ∧
      (collect_non_space it).sum = 3 ∧ (collect_non_space it).length = 2 ∧
      (scan it).most_common = [120] ∧ (scan it).max_freq = 2 ∧
      (scan it).least_common = [121] ∧ (scan it).min_freq = 1 := by
    decide
  obtain ⟨hsome, hsorted, hsum, hlen, hmost, hmax, hleast, hmin⟩ := hall it hmem
  obtain ⟨report, hrep⟩ := Option.isSome_iff_exists.1 hsome
  obtain ⟨_, h1, h2, h3, h4, h5, h6, h7⟩ := verbose_report_some hrep
  have h8 := verbose_report_std_dev hrep
  have hmean : compute_mean (collect_non_space it) = some (3 / 2) := by
    rw [compute_mean_eq _ (by rw [hlen]; decide) (by rw [hsum]; norm_num)
      (by rw [hlen]; norm_num), hsum, hlen]
    have hq : ((3 : Nat) : ℚ) / ((2 : Nat) : ℚ) = 3 / 2 := by norm_num
    rw [hq]
    exact round64_of_representable _
      ⟨3, -1, by norm_num, by norm_num, by norm_num, by norm_num⟩
  have hmedian : compute_median [1, 2] = some (some (3 / 2)) := by
    simp [compute_median, vector_at, SIZE_MOD, UINT_MOD]
  have hvar : compute_variance [1, 2] (some (3 / 2)) = some (1 / 4) := by
    rw [compute_variance_exact (3 / 2) [1, 2] (by decide) (by norm_num)]
    · norm_num
    · intro f hf
      have hf2 : f = 1 ∨ f = 2 := by simpa using hf
      rcases hf2 with rfl | rfl
      · exact ⟨by norm_num, ⟨-1, -1, by norm_num, by norm_num, by norm_num, by norm_num⟩,
          ⟨1, -2, by norm_num, by norm_num, by norm_num, by norm_num⟩⟩
      · exact ⟨by norm_num, ⟨1, -1, by norm_num, by norm_num, by norm_num, by norm_num⟩,
          ⟨1, -2, by norm_num, by norm_num, by norm_num, by norm_num⟩⟩
    · intro i hi1 hi2
      have hi : i = 1 ∨ i = 2 := by
        simp only [List.length_cons, List.length_nil] at hi2
        omega
      rcases hi with rfl | rfl
      · exact ⟨1, -2, by norm_num, by norm_num, by norm_num, by norm_num⟩
      · exact ⟨1, -1, by norm_num, by norm_num, by norm_num, by norm_num⟩
    · exact ⟨1, -2, by norm_num, by norm_num, by norm_num, by norm_num⟩
  rw [hsorted, hmedian, Option.some.injEq] at h6
  rw [hsorted, hmean, hvar] at h7
  rw [hmean] at h5
  have hsd : report.std_dev = some (1 / 2) := by
    rw [h8, h7]
    have hq : (1 / 4 : ℚ) = 1 / 2 * (1 / 2) := by norm_num
    show sqrt64 (1 / 4) = some (1 / 2)
    rw [hq]
    exact sqrt64_sq_nonneg _ (by norm_num)
      ⟨1, -1, by norm_num, by norm_num, by norm_num, by norm_num⟩
  refine ⟨report, ?_, h1.trans hmost, h2.trans hmax, h3.trans hleast, h4.trans hmin, h5,
    h6.symm, h7, hsd⟩
  simp only [get_character_frequencies, hr, hit, hrep, if_true]

/-- C10, witness: the file `"xxy"` without a final line terminator, iterated
in insertion order. -/
theorem scenario_xxy_witness :
    ReturnsTable (fun t => t) [120, 120, 121] [(120, 2), (121, 1)] ∧
    ∃ report,
      get_character_frequencies (fun t => t) (some [120, 120, 121]) true
        = Outcome.returned [(120, 2), (121, 1)] [] (some report) ∧
      report.most_common = [120] ∧ report.max_freq = 2 ∧
      report.least_common = [121] ∧ report.min_freq = 1 ∧
      report.mean = some (3 / 2) ∧ report.median = some (3 / 2) ∧
      report.variance = some (1 / 4) ∧ report.std_dev = some (1 / 2) :=
  scenario_xxy (fun t => t) (fun t => List.Perm.refl t) [120, 120, 121]
    (by simp [read_lines_cons, read_lines_nil, newline])

/-! ## The scan for the most and least common characters -/

theorem scan_append (l : List (CChar × Nat)) (e : CChar × Nat) :
    scan (l ++ [e]) = scan_step (scan l) e := by
  simp [scan, List.foldl_append]

theorem scan_nil : scan [] = Scan.init := rfl

/-- Invariant of the most-common half of the scan. -/
theorem scan_max_invariant (l : List (CChar × Nat)) :
    (∀ e ∈ l, e.1 ≠ space → e.2 ≤ (scan l).max_freq) ∧
    (scan l).most_common
      = (l.filter (fun e => e.1 ≠ space ∧ e.2 = (scan l).max_freq)).map Prod.fst ∧
    ((scan l).max_freq = 0 ∨ ∃ e ∈ l, e.1 ≠ space ∧ e.2 = (scan l).max_freq) := by
  induction l using List.reverseRecOn with
  | nil => simp [scan_nil, Scan.init]
  | append_singleton l e ih =>
    obtain ⟨hle, hmost, hex⟩ := ih
    rw [scan_append]
    by_cases hsp : e.1 = space
    · have hstep : scan_step (scan l) e = scan l := by simp [scan_step, hsp]
      rw [hstep]
      refine ⟨?_, ?_, ?_⟩
      · intro e' he' hne
        rcases List.mem_append.1 he' with h | h
        · exact hle e' h hne
        · rw [List.mem_singleton.1 h] at hne
          exact absurd hsp hne
      · rw [List.filter_append, List.map_append, ← hmost]
        simp [hsp]
      · rcases hex with h | ⟨e', he', h1, h2⟩
        · exact Or.inl h
        · exact Or.inr ⟨e', List.mem_append_left _ he', h1, h2⟩
    · rcases Nat.lt_trichotomy (scan l).max_freq e.2 with hlt | heq | hgt
      · have hmax : (scan_step (scan l) e).max_freq = e.2 := by
          simp only [scan_step, hsp, if_false, gt_iff_lt, hlt, if_true]
          split_ifs <;> rfl
        have hmc : (scan_step (scan l) e).most_common = [e.1] := by
          simp only [scan_step, hsp, if_false, gt_iff_lt, hlt, if_true]
          split_ifs <;> rfl
        rw [hmax, hmc]
        refine ⟨?_, ?_, ?_⟩
        · intro e' he' hne
          rcases List.mem_append.1 he' with h | h
          · exact Nat.le_of_lt (Nat.lt_of_le_of_lt (hle e' h hne) hlt)
          · rw [List.mem_singleton.1 h]
        · rw [List.filter_append, List.map_append]
          have hnone : l.filter (fun e' => e'.1 ≠ space ∧ e'.2 = e.2) = [] := by
            rw [List.filter_eq_nil_iff]
            intro e' he'
            simp only [decide_eq_true_eq, not_and]
            intro hne h2
            have := hle e' he' hne
            omega
          rw [hnone]
          simp [hsp]
        · exact Or.inr ⟨e, List.mem_append_right _ (List.mem_singleton.2 rfl), hsp, rfl⟩
      · have hmax : (scan_step (scan l) e).max_freq = (scan l).max_freq := by
          simp only [scan_step, hsp, if_false, gt_iff_lt, heq, lt_irrefl, if_true]
          split_ifs <;> rfl
        have hmc : (scan_step (scan l) e).most_common = (scan l).most_common ++ [e.1] := by
          simp only [scan_step, hsp, if_false, gt_iff_lt, heq, lt_irrefl, if_true]
          split_ifs <;> rfl
        rw [hmax, hmc]
        refine ⟨?_, ?_, ?_⟩
        · intro e' he' hne
          rcases List.mem_append.1 he' with h | h
          · exact hle e' h hne
          · rw [List.mem_singleton.1 h, heq]
        · rw [List.filter_append, List.map_append, ← hmost]
          simp [hsp, heq]
        · exact Or.inr ⟨e, List.mem_append_right _ (List.mem_singleton.2 rfl), hsp, heq.symm⟩
      · have hmax : (scan_step (scan l) e).max_freq = (scan l).max_freq := by
          simp only [scan_step, hsp, if_false, gt_iff_lt, Nat.lt_asymm hgt, Nat.ne_of_lt hgt]
          split_ifs <;> rfl
        have hmc : (scan_step (scan l) e).most_common = (scan l).most_common := by
          simp only [scan_step, hsp, if_false, gt_iff_lt, Nat.lt_asymm hgt, Nat.ne_of_lt hgt]
          split_ifs <;> rfl
        rw [hmax, hmc]
        refine ⟨?_, ?_, ?_⟩
        · intro e' he' hne
          rcases List.mem_append.1 he' with h | h
          · exact hle e' h hne
          · rw [List.mem_singleton.1 h]
            exact Nat.le_of_lt hgt
        · rw [List.filter_append, List.map_append, ← hmost]
          simp [hsp, Nat.ne_of_lt hgt]
        · rcases hex with h | ⟨e', he', h1, h2⟩
          · exact Or.inl h
          · exact Or.inr ⟨e', List.mem_append_left _ he', h1, h2⟩
theorem scan_step_min_freq (s : Scan) (e : CChar × Nat) (hsp : e.1 ≠ space) :
    (scan_step s e).min_freq = (if e.2 < s.min_freq then e.2 else s.min_freq) ∧
    (scan_step s e).least_common =
      (if e.2 < s.min_freq then [e.1]
       else if e.2 = s.min_freq then s.least_common ++ [e.1] else s.least_common) := by
  simp only [scan_step, hsp, if_false]
  split_ifs <;> exact ⟨rfl, rfl⟩

/-- Invariant of the least-common half of the scan. -/
theorem scan_min_invariant (l : List (CChar × Nat)) :
    (∀ e ∈ l, e.1 ≠ space → (scan l).min_freq ≤ e.2) ∧
    (scan l).least_common
      = (l.filter (fun e => e.1 ≠ space ∧ e.2 = (scan l).min_freq)).map Prod.fst ∧
    ((scan l).min_freq = UINT32_MAX ∨ ∃ e ∈ l, e.1 ≠ space ∧ e.2 = (scan l).min_freq) := by
  induction l using List.reverseRecOn with
  | nil => simp [scan_nil, Scan.init]
  | append_singleton l e ih =>
    obtain ⟨hle, hleast, hex⟩ := ih
    rw [scan_append]
    by_cases hsp : e.1 = space
    · have hstep : scan_step (scan l) e = scan l := by simp [scan_step, hsp]
      rw [hstep]
      refine ⟨?_, ?_, ?_⟩
      · intro e' he' hne
        rcases List.mem_append.1 he' with h | h
        · exact hle e' h hne
        · rw [List.mem_singleton.1 h] at hne
          exact absurd hsp hne
      · rw [List.filter_append, List.map_append, ← hleast]
        simp [hsp]
      · rcases hex with h | ⟨e', he', h1, h2⟩
        · exact Or.inl h
        · exact Or.inr ⟨e', List.mem_append_left _ he', h1, h2⟩
    · obtain ⟨hmin, hlc⟩ := scan_step_min_freq (scan l) e hsp
      rcases Nat.lt_trichotomy e.2 (scan l).min_freq with hlt | heq | hgt
      · rw [if_pos hlt] at hmin hlc
        rw [hmin, hlc]
        refine ⟨?_, ?_, ?_⟩
        · intro e' he' hne
          rcases List.mem_append.1 he' with h | h
          · exact Nat.le_of_lt (Nat.lt_of_lt_of_le hlt (hle e' h hne))
          · rw [List.mem_singleton.1 h]
        · rw [List.filter_append, List.map_append]
          have hnone : l.filter (fun e' => e'.1 ≠ space ∧ e'.2 = e.2) = [] := by
            rw [List.filter_eq_nil_iff]
            intro e' he'
            simp only [decide_eq_true_eq, not_and]
            intro hne h2
            have := hle e' he' hne
            omega
          rw [hnone]
          simp [hsp]
        · exact Or.inr ⟨e, List.mem_append_right _ (List.mem_singleton.2 rfl), hsp, rfl⟩
      · rw [if_neg (by omega)] at hmin
        rw [if_neg (by omega), if_pos heq] at hlc
        rw [hmin, hlc]
        refine ⟨?_, ?_, ?_⟩
        · intro e' he' hne
          rcases List.mem_append.1 he' with h | h
          · exact hle e' h hne
          · rw [List.mem_singleton.1 h, heq]
        · rw [List.filter_append, List.map_append, ← hleast]
          simp [hsp, heq]
        · exact Or.inr ⟨e, List.mem_append_right _ (List.mem_singleton.2 rfl), hsp, heq⟩
      · rw [if_neg (by omega)] at hmin
        rw [if_neg (by omega), if_neg (by omega)] at hlc
        rw [hmin, hlc]
        refine ⟨?_, ?_, ?_⟩
        · intro e' he' hne
          rcases List.mem_append.1 he' with h | h
          · exact hle e' h hne
          · rw [List.mem_singleton.1 h]
            exact Nat.le_of_lt hgt
        · rw [List.filter_append, List.map_append, ← hleast]
          simp [hsp, Nat.ne_of_gt hgt]
        · rcases hex with h | ⟨e', he', h1, h2⟩
          · exact Or.inl h
          · exact Or.inr ⟨e', List.mem_append_left _ he', h1, h2⟩

/-- Without a non-space entry the scan changes nothing. -/
theorem scan_all_space (l : List (CChar × Nat)) (h : ∀ e ∈ l, e.1 = space) :
    scan l = Scan.init := by
  induction l using List.reverseRecOn with
  | nil => rfl
  | append_singleton l e ih =>
    rw [scan_append, ih (fun e' he' => h e' (List.mem_append_left _ he'))]
    simp [scan_step, h e (List.mem_append_right _ (List.mem_singleton.2 rfl))]

/-- In a table with distinct keys an entry is what `find?` returns. -/
theorem mem_iff_find? (t : Table) (h : t.keys.Nodup) (c : CChar) (f : Nat) :
    (c, f) ∈ t ↔ t.find? c = some f := by
  induction t with
  | nil => simp [Table.find?]
  | cons e t ih =>
    obtain ⟨k, v⟩ := e
    have hn : k ∉ Table.keys t ∧ (Table.keys t).Nodup := by
      simpa [Table.keys] using h
    by_cases hk : k = c
    · subst hk
      have hnot : ∀ g, (k, g) ∉ t := fun g hg =>
        hn.1 (List.mem_map.2 ⟨(k, g), hg, rfl⟩)
      simp only [Table.find?, if_true, List.mem_cons, Prod.mk.injEq, true_and,
        Option.some.injEq]
      constructor
      · rintro (h1 | h1)
        · exact h1.symm
        · exact absurd h1 (hnot f)
      · intro h1
        exact Or.inl h1.symm
    · simp only [Table.find?, hk, if_false, List.mem_cons, Prod.mk.injEq]
      rw [← ih hn.2]
      constructor
      · rintro (h1 | h1)
        · exact absurd h1.1.symm hk
        · exact h1
      · exact Or.inr

/-- The characters collected for one extreme value, in iteration order, are
distinct, are not the space, and are the keys mapped to that value. -/
theorem extreme_keys (order : Table → List (CChar × Nat)) (horder : ValidOrder order)
    (table : Table) (hkeys : table.keys.Nodup) (m : Nat) :
    (((order table).filter (fun e => e.1 ≠ space ∧ e.2 = m)).map Prod.fst).Nodup ∧
    space ∉ ((order table).filter (fun e => e.1 ≠ space ∧ e.2 = m)).map Prod.fst ∧
    ∀ c, c ∈ ((order table).filter (fun e => e.1 ≠ space ∧ e.2 = m)).map Prod.fst
      ↔ c ≠ space ∧ table.find? c = some m := by
  refine ⟨?_, ?_, ?_⟩
  · have hperm : ((order table).map Prod.fst).Nodup :=
      ((horder table).map Prod.fst).nodup_iff.2 hkeys
    exact hperm.sublist ((List.filter_sublist _).map Prod.fst)
  · intro hmem
    obtain ⟨e, he, hfst⟩ := List.mem_map.1 hmem
    have := (List.mem_filter.1 he).2
    simp only [decide_eq_true_eq] at this
    exact this.1 hfst
  · intro c
    rw [← mem_iff_find? table hkeys c m]
    constructor
    · intro hmem
      obtain ⟨e, he, hfst⟩ := List.mem_map.1 hmem
      obtain ⟨hin, hp⟩ := List.mem_filter.1 he
      simp only [decide_eq_true_eq] at hp
      have hin2 : e ∈ table := (horder table).mem_iff.1 hin
      have he2 : e = (c, m) := Prod.ext hfst hp.2
      exact ⟨hfst ▸ hp.1, he2 ▸ hin2⟩
    · rintro ⟨hsp, hin⟩
      refine List.mem_map.2 ⟨(c, m), List.mem_filter.2 ⟨(horder table).mem_iff.2 hin, ?_⟩, rfl⟩
      simp [hsp]

/-- C12: for a table with distinct keys and at least one non-space entry, and
every iteration order, the scan ends with `max_freq` the maximum count over
the non-space entries and `most_common` the non-space keys whose count is that
maximum, in iteration order, each once, and never the space. -/
theorem most_common_scan (order : Table → List (CChar × Nat)) (horder : ValidOrder order)
    (table : Table) (hkeys : table.keys.Nodup) (hne : ∃ e ∈ table, e.1 ≠ space) :
    (∃ e ∈ table, e.1 ≠ space ∧ e.2 = (scan (order table)).max_freq) ∧
    (∀ e ∈ table, e.1 ≠ space → e.2 ≤ (scan (order table)).max_freq) ∧
    (scan (order table)).most_common
      = ((order table).filter
          (fun e => e.1 ≠ space ∧ e.2 = (scan (order table)).max_freq)).map Prod.fst ∧
    (scan (order table)).most_common.Nodup ∧
    space ∉ (scan (order table)).most_common ∧
    (∀ c, c ∈ (scan (order table)).most_common
      ↔ c ≠ space ∧ table.find? c = some (scan (order table)).max_freq) := by
  obtain ⟨hle, hmost, hex⟩ := scan_max_invariant (order table)
  obtain ⟨hnodup, hspace, hiff⟩ :=
    extreme_keys order horder table hkeys (scan (order table)).max_freq
  have hle2 : ∀ e ∈ table, e.1 ≠ space → e.2 ≤ (scan (order table)).max_freq :=
    fun e he => hle e ((horder table).mem_iff.2 he)
  refine ⟨?_, hle2, hmost, hmost ▸ hnodup, hmost ▸ hspace, ?_⟩
  · rcases hex with h0 | ⟨e, he, h1, h2⟩
    · obtain ⟨e, he, h1⟩ := hne
      have := hle2 e he h1
      exact ⟨e, he, h1, by omega⟩
    · exact ⟨e, (horder table).mem_iff.1 he, h1, h2⟩
  · intro c
    rw [← hiff c, ← hmost]

/-- C12, witness: the table `a -> 2, b -> 2, ' ' -> 1` in insertion order. -/
theorem most_common_scan_witness :
    (scan [(97, 2), (98, 2), (32, 1)]).max_freq = 2 ∧
    (scan [(97, 2), (98, 2), (32, 1)]).most_common = [97, 98] := by
  obtain ⟨_, _, hmost, _, _, _⟩ :=
    most_common_scan (fun t => t) (fun t => List.Perm.refl t) [(97, 2), (98, 2), (32, 1)]
      (by decide) (by decide)
  exact ⟨by decide, hmost.trans (by decide)⟩

/-- C13: for a table of `unsigned int` counts with distinct keys and at least
one non-space entry, and every iteration order, the scan ends with `min_freq`
the minimum count over the non-space entries and `least_common` the non-space
keys whose count is that minimum, in iteration order, each once, and never the
space; a count equal to `UINT32_MAX` is no exception. -/
theorem least_common_scan (order : Table → List (CChar × Nat)) (horder : ValidOrder order)
    (table : Table) (hkeys : table.keys.Nodup) (hfit : ∀ e ∈ table, e.2 ≤ UINT32_MAX)
    (hne : ∃ e ∈ table, e.1 ≠ space) :
    (∃ e ∈ table, e.1 ≠ space ∧ e.2 = (scan (order table)).min_freq) ∧
    (∀ e ∈ table, e.1 ≠ space → (scan (order table)).min_freq ≤ e.2) ∧
    (scan (order table)).least_common
      = ((order table).filter
          (fun e => e.1 ≠ space ∧ e.2 = (scan (order table)).min_freq)).map Prod.fst ∧
    (scan (order table)).least_common.Nodup ∧
    space ∉ (scan (order table)).least_common ∧
    (∀ c, c ∈ (scan (order table)).least_common
      ↔ c ≠ space ∧ table.find? c = some (scan (order table)).min_freq) := by
  obtain ⟨hle, hleast, hex⟩ := scan_min_invariant (order table)
  obtain ⟨hnodup, hspace, hiff⟩ :=
    extreme_keys order horder table hkeys (scan (order table)).min_freq
  have hle2 : ∀ e ∈ table, e.1 ≠ space → (scan (order table)).min_freq ≤ e.2 :=
    fun e he => hle e ((horder table).mem_iff.2 he)
  refine ⟨?_, hle2, hleast, hleast ▸ hnodup, hleast ▸ hspace, ?_⟩
  · rcases hex with h0 | ⟨e, he, h1, h2⟩
    · obtain ⟨e, he, h1⟩ := hne
      have h3 := hle2 e he h1
      have h4 := hfit e he
      exact ⟨e, he, h1, by omega⟩
    · exact ⟨e, (horder table).mem_iff.1 he, h1, h2⟩
  · intro c
    rw [← hiff c, ← hleast]

/-- C13, witness: the table `a -> UINT32_MAX, ' ' -> 1, b -> UINT32_MAX`, whose
non-space counts equal the initial sentinel. -/
theorem least_common_scan_witness :
    (scan [(97, 4294967295), (32, 1), (98, 4294967295)]).min_freq = 4294967295 ∧
    (scan [(97, 4294967295), (32, 1), (98, 4294967295)]).least_common = [97, 98] := by
  obtain ⟨_, _, hleast, _, _, _⟩ :=
    least_common_scan (fun t => t) (fun t => List.Perm.refl t)
      [(97, 4294967295), (32, 1), (98, 4294967295)] (by decide) (by decide) (by decide)
  exact ⟨by decide, hleast.trans (by decide)⟩

/-- C17: for a table without a non-space entry (the empty table, or the table
whose only key is the space) and every iteration order, the scan leaves
`max_freq = 0`, `min_freq = UINT32_MAX = 4294967295` and both vectors empty. -/
theorem scan_keeps_sentinels (order : Table → List (CChar × Nat))
    (horder : ValidOrder order) (table : Table) (h : ∀ e ∈ table, e.1 = space) :
    (scan (order table)).max_freq = 0 ∧
    (scan (order table)).min_freq = 4294967295 ∧
    (scan (order table)).most_common = [] ∧
    (scan (order table)).least_common = [] ∧
    UINT32_MAX = 4294967295 := by
  rw [scan_all_space (order table) (fun e he => h e ((horder table).mem_iff.1 he))]
  exact ⟨rfl, rfl, rfl, rfl, rfl⟩

/-- C17, witness: the table `' ' -> 5`. -/
theorem scan_keeps_sentinels_witness :
    (scan [(space, 5)]).max_freq = 0 ∧
    (scan [(space, 5)]).min_freq = 4294967295 ∧
    (scan [(space, 5)]).most_common = [] ∧
    (scan [(space, 5)]).least_common = [] ∧
    UINT32_MAX = 4294967295 :=
  scan_keeps_sentinels (fun t => t) (fun t => List.Perm.refl t) [(space, 5)] (by decide)

/-! ## Bounds of the median indices and the divisors -/

/-- A file with a counted character other than the space gives a non-empty
vector `non_space_freqs`. -/
theorem collect_ne_nil (order : Table → List (CChar × Nat)) (horder : ValidOrder order)
    (content : List CChar) (h : ∃ c ∈ content, c ≠ newline ∧ c ≠ space) :
    collect_non_space (order (read_loop content [])) ≠ [] := by
  obtain ⟨c, hc, hnl, hsp⟩ := h
  have hkey : c ∈ (read_loop content []).keys := by
    rw [read_loop_eq, mem_keys_count_line, List.mem_filter]
    exact Or.inl ⟨hc, by simpa using hnl⟩
  obtain ⟨entry, hentry, hfst⟩ := List.mem_map.1 hkey
  have hmem : entry ∈ order (read_loop content []) := (horder _).mem_iff.2 hentry
  intro h0
  have : entry.2 ∈ collect_non_space (order (read_loop content [])) :=
    List.mem_map.2 ⟨entry, List.mem_filter.2 ⟨hmem, by simpa [hfst] using hsp⟩, rfl⟩
  rw [h0] at this
  exact List.not_mem_nil _ this

/-- The table has at most one entry per value of `char`. -/
theorem collect_length_le (order : Table → List (CChar × Nat)) (horder : ValidOrder order)
    (table : Table) (hkeys : table.keys.Nodup) :
    (collect_non_space (order table)).length ≤ 256 := by
  have h1 : (collect_non_space (order table)).length ≤ (order table).length := by
    simp only [collect_non_space, List.length_map]
    exact List.length_filter_le _ _
  have h2 : (order table).length = table.keys.length := by
    rw [(horder table).length_eq, Table.keys, List.length_map]
  have h3 : table.keys.length ≤ Fintype.card CChar := hkeys.length_le_card
  rw [Fintype.card_fin] at h3
  omega

theorem increment_fit (t : Table) (c : CChar) (h : ∀ e ∈ t, e.2 < UINT_MOD) :
    ∀ e ∈ increment t c, e.2 < UINT_MOD := by
  induction t with
  | nil =>
    intro e he
    simp only [increment, List.mem_singleton] at he
    rw [he]
    exact Nat.mod_lt _ (by decide)
  | cons x t ih =>
    obtain ⟨k, v⟩ := x
    intro e he
    by_cases hk : k = c
    · simp only [increment, hk, if_true, List.mem_cons] at he
      rcases he with rfl | he
      · exact Nat.mod_lt _ (by decide)
      · exact h e (List.mem_cons_of_mem _ he)
    · simp only [increment, hk, if_false, List.mem_cons] at he
      rcases he with rfl | he
      · exact h _ (List.mem_cons_self _ _)
      · exact ih (fun e' he' => h e' (List.mem_cons_of_mem _ he')) e he

/-- Every count of the table built by the read loop is an `unsigned int`. -/
theorem read_loop_fit (content : List CChar) : ∀ e ∈ read_loop content [], e.2 < UINT_MOD := by
  rw [read_loop_eq]
  have key : ∀ (l : List CChar) (t : Table), (∀ e ∈ t, e.2 < UINT_MOD) →
      ∀ e ∈ count_line t l, e.2 < UINT_MOD := by
    intro l
    induction l with
    | nil => exact fun t h => h
    | cons a l ih => exact fun t h => ih (increment t a) (increment_fit t a h)
  exact key _ [] (fun e he => absurd he (List.not_mem_nil e))

/-- The mean of at most 256 `unsigned int` counts is finite and lies between
`0` and `2 ^ 32`. -/
theorem compute_mean_bounds (l : List Nat) (hl : l.length ≠ 0) (hlen : l.length ≤ 256)
    (hfit : ∀ f ∈ l, f < UINT_MOD) :
    ∃ μ, compute_mean l = some μ ∧ 0 ≤ μ ∧ μ ≤ 2 ^ (32 : ℤ) ∧
      round64 (((l.sum : Nat) : ℚ) / ((l.length : Nat) : ℚ)) = some μ := by
  obtain ⟨hsum, hsum2⟩ := sum_lt_of_fit l hlen hfit
  have hn : (0 : ℚ) < ((l.length : Nat) : ℚ) := by
    exact_mod_cast Nat.pos_of_ne_zero hl
  have hq0 : (0 : ℚ) ≤ ((l.sum : Nat) : ℚ) / ((l.length : Nat) : ℚ) := by positivity
  have hq : ((l.sum : Nat) : ℚ) / ((l.length : Nat) : ℚ) ≤ 2 ^ (32 : ℤ) := by
    rw [div_le_iff₀ hn]
    have : ((l.sum : Nat) : ℚ) ≤ ((l.length * 2 ^ 32 : Nat) : ℚ) := by exact_mod_cast hsum2
    calc ((l.sum : Nat) : ℚ) ≤ ((l.length * 2 ^ 32 : Nat) : ℚ) := this
      _ = 2 ^ (32 : ℤ) * ((l.length : Nat) : ℚ) := by push_cast; ring
  obtain ⟨μ, hμ, hb⟩ := round64_bounded _ 32 (by norm_num) (by norm_num)
    (by rw [abs_of_nonneg hq0]; exact hq)
  refine ⟨μ, ?_, round64_nonneg hq0 hμ, le_trans (le_abs_self μ) hb, hμ⟩
  rw [compute_mean_eq l hl hsum (by omega), hμ]

/-- One pass of the loop of lines 95-97 around a mean between `0` and
`2 ^ 32`: the squared deviation is finite, non-negative, at most `2 ^ 64`, and
not below `2 ^ -120` when the count is `2 ^ -60` away from the mean. -/
theorem term_bounds (μ : ℚ) (f : Nat) (hμ0 : 0 ≤ μ) (hμ : μ ≤ 2 ^ (32 : ℤ))
    (hf : f < UINT_MOD) :
    ∃ t, Double.mul (Double.sub (Double.of_nat f) (some μ))
          (Double.sub (Double.of_nat f) (some μ)) = some t ∧
      0 ≤ t ∧ t ≤ 2 ^ (64 : ℤ) ∧
      ((2 : ℚ) ^ (-60 : ℤ) ≤ |(f : ℚ) - μ| → (2 : ℚ) ^ (-120 : ℤ) ≤ t) := by
  have hf53 : f < 2 ^ 53 := by
    simp only [UINT_MOD] at hf
    omega
  have hfq : (f : ℚ) ≤ 2 ^ (32 : ℤ) := by
    have : (f : ℚ) ≤ ((4294967296 : Nat) : ℚ) := by
      exact_mod_cast (by simp only [UINT_MOD] at hf; omega : f ≤ 4294967296)
    norm_num at this ⊢
    exact this
  have hf0 : (0 : ℚ) ≤ (f : ℚ) := Nat.cast_nonneg f
  have hdabs : |(f : ℚ) - μ| ≤ 2 ^ (32 : ℤ) := by
    rw [abs_le]
    constructor <;> linarith
  obtain ⟨d, hd, hdb⟩ := round64_bounded _ 32 (by norm_num) (by norm_num) hdabs
  have hdd0 : 0 ≤ d * d := mul_self_nonneg d
  have hdd : |d * d| ≤ 2 ^ (64 : ℤ) := by
    rw [abs_mul]
    have h64 : (2 : ℚ) ^ (64 : ℤ) = 2 ^ (32 : ℤ) * 2 ^ (32 : ℤ) := by norm_num
    rw [h64]
    exact mul_le_mul hdb hdb (abs_nonneg d) (two_zpow_pos 32).le
  obtain ⟨t, ht, htb⟩ := round64_bounded _ 64 (by norm_num) (by norm_num) hdd
  refine ⟨t, ?_, round64_nonneg hdd0 ht, le_trans (le_abs_self t) htb, ?_⟩
  · rw [Double.of_nat_eq f hf53, Double.sub_some, hd, Double.mul_some, ht]
  · intro hfar
    have hd60 := round64_abs_lower (-60) (by norm_num) hfar hd
    have h120 : (2 : ℚ) ^ (-120 : ℤ) = 2 ^ (-60 : ℤ) * 2 ^ (-60 : ℤ) := by
      rw [← zpow_add₀ (by norm_num : (2 : ℚ) ≠ 0)]
      norm_num
    have hsq : (2 : ℚ) ^ (-120 : ℤ) ≤ d * d := by
      rw [h120, ← abs_mul_abs_self d]
      exact mul_le_mul hd60 hd60 (two_zpow_pos _).le (abs_nonneg d)
    exact round64_lower (-120) (by norm_num) hsq ht

/-- The loop of lines 95-97 keeps the running sum finite and non-negative, and
at least `2 ^ -120` once a count `2 ^ -60` away from the mean has been added. -/
theorem fold_bounds (μ : ℚ) (hμ0 : 0 ≤ μ) (hμ : μ ≤ 2 ^ (32 : ℤ)) (l : List Nat) :
    ∀ (s : ℚ) (p : ℤ), 64 ≤ p → p + l.length ≤ 1023 → 0 ≤ s → s ≤ 2 ^ p →
      (∀ f ∈ l, f < UINT_MOD) →
      ∃ s2, l.foldl
          (fun (variance : Double) (f : Nat) =>
            Double.add variance
              (Double.mul (Double.sub (Double.of_nat f) (some μ))
                (Double.sub (Double.of_nat f) (some μ))))
          (some s) = some s2 ∧
        0 ≤ s2 ∧ s2 ≤ 2 ^ (p + l.length) ∧
        (((2 : ℚ) ^ (-120 : ℤ) ≤ s ∨ ∃ f ∈ l, (2 : ℚ) ^ (-60 : ℤ) ≤ |(f : ℚ) - μ|) →
          (2 : ℚ) ^ (-120 : ℤ) ≤ s2) := by
  induction l with
  | nil =>
    intro s p _ _ hs0 hsp _
    refine ⟨s, rfl, hs0, by simpa using hsp, ?_⟩
    rintro (h | ⟨f, hf, _⟩)
    · exact h
    · exact absurd hf (List.not_mem_nil f)
  | cons f l ih =>
    intro s p hp hpl hs0 hsp hfit
    simp only [List.length_cons, Nat.cast_add, Nat.cast_one] at hpl
    obtain ⟨t, ht, ht0, ht64, htfar⟩ := term_bounds μ f hμ0 hμ (hfit f (List.mem_cons_self f l))
    have hst0 : 0 ≤ s + t := add_nonneg hs0 ht0
    have hst : |s + t| ≤ 2 ^ (p + 1) := by
      rw [abs_of_nonneg hst0, zpow_add₀ (by norm_num : (2 : ℚ) ≠ 0), zpow_one, mul_two]
      exact add_le_add hsp (le_trans ht64 (zpow_le_zpow_right₀ (by norm_num) hp))
    obtain ⟨s1, hs1, hs1b⟩ := round64_bounded _ (p + 1) (by omega) (by omega) hst
    obtain ⟨s2, hs2, hs20, hs2b, hs2far⟩ := ih s1 (p + 1) (by omega) (by omega)
      (round64_nonneg hst0 hs1) (le_trans (le_abs_self s1) hs1b)
      (fun g hg => hfit g (List.mem_cons_of_mem f hg))
    refine ⟨s2, ?_, hs20, ?_, ?_⟩
    · rw [List.foldl_cons, ht, Double.add_some, hs1, hs2]
    · have : p + 1 + (l.length : ℤ) = p + ((l.length : ℤ) + 1) := by ring
      rw [this] at hs2b
      simpa using hs2b
    · intro hfar
      apply hs2far
      rcases hfar with h | ⟨g, hg, hgfar⟩
      · left
        exact round64_lower (-120) (by norm_num) (by linarith) hs1
      · rcases List.mem_cons.1 hg with rfl | hg
        · left
          have := htfar hgfar
          exact round64_lower (-120) (by norm_num) (by linarith) hs1
        · right
          exact ⟨g, hg, hgfar⟩

/-- The variance of at most 256 `unsigned int` counts around a mean between
`0` and `2 ^ 32` is finite and non-negative, and at least `2 ^ -128` when a
count is `2 ^ -60` away from the mean. -/
theorem compute_variance_bounds (μ : ℚ) (hμ0 : 0 ≤ μ) (hμ : μ ≤ 2 ^ (32 : ℤ)) (l : List Nat)
    (hl : l.length ≠ 0) (hlen : l.length ≤ 256) (hfit : ∀ f ∈ l, f < UINT_MOD) :
    ∃ v, compute_variance l (some μ) = some v ∧ 0 ≤ v ∧
      ((∃ f ∈ l, (2 : ℚ) ^ (-60 : ℤ) ≤ |(f : ℚ) - μ|) → (2 : ℚ) ^ (-128 : ℤ) ≤ v) := by
  obtain ⟨s, hs, hs0, hsb, hsfar⟩ := fold_bounds μ hμ0 hμ l 0 64 (le_refl _) (by omega)
    (le_refl _) (two_zpow_pos 64).le hfit
  have hn1 : (1 : ℚ) ≤ ((l.length : Nat) : ℚ) := by
    exact_mod_cast Nat.one_le_iff_ne_zero.2 hl
  have hn0 : (0 : ℚ) < ((l.length : Nat) : ℚ) := by linarith
  have hn256 : ((l.length : Nat) : ℚ) ≤ 2 ^ (8 : ℤ) := by
    have : ((l.length : Nat) : ℚ) ≤ ((256 : Nat) : ℚ) := by exact_mod_cast hlen
    norm_num at this ⊢
    exact this
  have hq0 : 0 ≤ s / ((l.length : Nat) : ℚ) := div_nonneg hs0 hn0.le
  have hq : |s / ((l.length : Nat) : ℚ)| ≤ 2 ^ (64 + (l.length : ℤ)) := by
    rw [abs_of_nonneg hq0]
    exact le_trans (div_le_self hs0 hn1) hsb
  obtain ⟨v, hv, _⟩ := round64_bounded _ (64 + (l.length : ℤ)) (by omega) (by omega) hq
  refine ⟨v, ?_, round64_nonneg hq0 hv, ?_⟩
  · rw [compute_variance, hs, Double.of_nat_eq _ (by omega),
      Double.div_some _ _ hn0.ne', hv]
  · intro hfar
    have h120 := hsfar (Or.inr hfar)
    have h128 : (2 : ℚ) ^ (-128 : ℤ) ≤ s / ((l.length : Nat) : ℚ) := by
      rw [le_div_iff₀ hn0]
      have h1 : (2 : ℚ) ^ (-128 : ℤ) * 2 ^ (8 : ℤ) = 2 ^ (-120 : ℤ) := by
        rw [← zpow_add₀ (by norm_num : (2 : ℚ) ≠ 0)]
        norm_num
      calc (2 : ℚ) ^ (-128 : ℤ) * ((l.length : Nat) : ℚ)
          ≤ 2 ^ (-128 : ℤ) * 2 ^ (8 : ℤ) :=
            mul_le_mul_of_nonneg_left hn256 (two_zpow_pos _).le
        _ = 2 ^ (-120 : ℤ) := h1
        _ ≤ s := h120
    exact round64_lower (-128) (by norm_num) h128 hv

/-- The verbose block runs into undefined behaviour exactly when the vector
`non_space_freqs` is empty. -/
theorem verbose_report_none_iff (entries : List (CChar × Nat)) :
    verbose_report entries = none ↔ collect_non_space entries = [] := by
  constructor
  · intro h
    by_contra hne
    have := verbose_report_isSome entries hne
    rw [h] at this
    exact absurd this (by simp)
  · intro h
    simp only [verbose_report, h]
    rfl

/-- The counts collected from a table of `unsigned int` counts are `unsigned
int` counts. -/
theorem collect_fit (entries : List (CChar × Nat)) (hfit : ∀ e ∈ entries, e.2 < UINT_MOD) :
    ∀ f ∈ collect_non_space entries, f < UINT_MOD := by
  intro f hf
  obtain ⟨e, he, rfl⟩ := List.mem_map.1 hf
  exact hfit e (List.mem_filter.1 he).1

/-- For at most 256 non-space `unsigned int` counts, at least one, the verbose
block ends with a finite mean between `0` and `2 ^ 32`, the rounding of the
exact quotient, and a finite non-negative variance, which is at least
`2 ^ -128` when a count is `2 ^ -60` away from the mean. -/
theorem report_bounds (entries : List (CChar × Nat)) (hne : collect_non_space entries ≠ [])
    (hlen : (collect_non_space entries).length ≤ 256)
    (hfit : ∀ f ∈ collect_non_space entries, f < UINT_MOD) :
    ∃ report μ v, verbose_report entries = some report ∧
      report.mean = some μ ∧ 0 ≤ μ ∧ μ ≤ 2 ^ (32 : ℤ) ∧
      round64 ((((collect_non_space entries).sum : Nat) : ℚ)
        / (((collect_non_space entries).length : Nat) : ℚ)) = some μ ∧
      report.variance = some v ∧ 0 ≤ v ∧
      ((∃ f ∈ collect_non_space entries, (2 : ℚ) ^ (-60 : ℤ) ≤ |(f : ℚ) - μ|) →
        (2 : ℚ) ^ (-128 : ℤ) ≤ v) := by
  obtain ⟨report, hrep⟩ := Option.isSome_iff_exists.1 (verbose_report_isSome entries hne)
  obtain ⟨_, _, _, _, _, hmean, _, hvar⟩ := verbose_report_some hrep
  have hl : (collect_non_space entries).length ≠ 0 := fun h0 => hne (List.length_eq_zero.1 h0)
  obtain ⟨μ, hμ, hμ0, hμ32, hμr⟩ := compute_mean_bounds _ hl hlen hfit
  have hperm := List.perm_insertionSort (fun a b : Nat => a ≤ b) (collect_non_space entries)
  obtain ⟨v, hv, hv0, hvfar⟩ := compute_variance_bounds μ hμ0 hμ32
    ((collect_non_space entries).insertionSort (fun a b => a ≤ b))
    (by rw [hperm.length_eq]; exact hl) (by rw [hperm.length_eq]; exact hlen)
    (fun f hf => hfit f (hperm.mem_iff.1 hf))
  refine ⟨report, μ, v, hrep, by rw [hmean, hμ], hμ0, hμ32, hμr,
    by rw [hvar, hμ, hv], hv0, ?_⟩
  rintro ⟨f, hf, hfar⟩
  exact hvfar ⟨f, hperm.mem_iff.2 hf, hfar⟩

/-- C18: for a file with at least one counted character other than the space,
under every iteration order, the vector of non-space counts has size
`1 ≤ n ≤ 256`; the median indices `n / 2 - 1` (computed in `size_t` without
wrapping) and `n / 2` for even `n`, `n / 2` for odd `n`, are below `n`; the
divisor `n` of mean and variance is not zero; and the call with
`verbose = true` returns with finite mean and variance. -/
theorem median_indices_in_bounds (order : Table → List (CChar × Nat))
    (horder : ValidOrder order) (content : List CChar)
    (h : ∃ c ∈ content, c ≠ newline ∧ c ≠ space) :
    ∃ n, (collect_non_space (order (read_loop content []))).length = n ∧
      ((collect_non_space (order (read_loop content []))).insertionSort
        (fun a b => a ≤ b)).length = n ∧
      1 ≤ n ∧ n ≤ 256 ∧
      (n % 2 = 0 →
        (n / 2 + SIZE_MOD - 1) % SIZE_MOD = n / 2 - 1 ∧ n / 2 - 1 < n ∧ n / 2 < n) ∧
      (n % 2 ≠ 0 → n / 2 < n) ∧
      ∃ report,
        get_character_frequencies order (some content) true
          = Outcome.returned (read_loop content []) [] (some report) ∧
        report.mean ≠ none ∧ report.variance ≠ none := by
  have hne := collect_ne_nil order horder content h
  have hkeys : (read_loop content []).keys.Nodup := by
    rw [read_loop_eq]
    exact nodup_keys_count_line _ [] List.nodup_nil
  have hle := collect_length_le order horder (read_loop content []) hkeys
  have hpos : 1 ≤ (collect_non_space (order (read_loop content []))).length := by
    rcases hl : collect_non_space (order (read_loop content [])) with _ | ⟨a, l⟩
    · exact absurd hl hne
    · simp
  refine ⟨_, rfl, List.length_insertionSort _ _, hpos, hle, ?_, ?_, ?_⟩
  · intro heven
    refine ⟨?_, by omega, by omega⟩
    have h2 : (collect_non_space (order (read_loop content []))).length / 2 + SIZE_MOD - 1
        = ((collect_non_space (order (read_loop content []))).length / 2 - 1) + SIZE_MOD := by
      omega
    rw [h2, Nat.add_mod_right]
    exact Nat.mod_eq_of_lt (by simp only [SIZE_MOD]; omega)
  · intro _
    omega
  · obtain ⟨report, hrep⟩ := verbose_returns order horder content h
    have hv : verbose_report (order (read_loop content [])) = some report := by
      simp only [get_character_frequencies, if_true] at hrep
      split at hrep
      · simp at hrep
      · rename_i r hr
        simp only [Outcome.returned.injEq, Option.some.injEq, true_and] at hrep
        rw [hr, hrep]
    have hfit := collect_fit (order (read_loop content []))
      (fun e he => read_loop_fit content e ((horder _).mem_iff.1 he))
    obtain ⟨report2, μ, v, hv2, hmean, _, _, _, hvar, _, _⟩ :=
      report_bounds (order (read_loop content [])) hne hle hfit
    rw [hv, Option.some.injEq] at hv2
    subst hv2
    refine ⟨report, hrep, ?_, ?_⟩
    · rw [hmean]
      simp
    · rw [hvar]
      simp

/-- C18, witness: the file `"ab"`. -/
theorem median_indices_in_bounds_witness :
    ∃ n, (collect_non_space (read_loop [97, 98] [])).length = n ∧
      ((collect_non_space (read_loop [97, 98] [])).insertionSort
        (fun a b => a ≤ b)).length = n ∧
      1 ≤ n ∧ n ≤ 256 ∧
      (n % 2 = 0 →
        (n / 2 + SIZE_MOD - 1) % SIZE_MOD = n / 2 - 1 ∧ n / 2 - 1 < n ∧ n / 2 < n) ∧
      (n % 2 ≠ 0 → n / 2 < n) ∧
      ∃ report,
        get_character_frequencies (fun t => t) (some [97, 98]) true
          = Outcome.returned (read_loop [97, 98] []) [] (some report) ∧
        report.mean ≠ none ∧ report.variance ≠ none :=
  median_indices_in_bounds (fun t => t) (fun t => List.Perm.refl t) [97, 98]
    ⟨97, by decide, by decide, by decide⟩

/-! ## Mean and standard deviation -/

/-- The vector `non_space_freqs` holds, in some order, the counts of the
entries of the table whose key is not the space. -/
theorem collect_perm (order : Table → List (CChar × Nat)) (horder : ValidOrder order)
    (table : Table) :
    (collect_non_space (order table)).Perm (collect_non_space table) :=
  ((horder table).filter _).map _

theorem collect_ne_nil_of_mem (entries : List (CChar × Nat))
    (hne : ∃ e ∈ entries, e.1 ≠ space) : collect_non_space entries ≠ [] := by
  obtain ⟨e, he, hsp⟩ := hne
  intro h0
  have : e.2 ∈ collect_non_space entries :=
    List.mem_map.2 ⟨e, List.mem_filter.2 ⟨he, by simpa using hsp⟩, rfl⟩
  rw [h0] at this
  exact List.not_mem_nil _ this

/-- For a table of `unsigned int` counts with distinct keys and a non-space
entry, under every iteration order, the verbose block ends; its mean is the
rounding of the exact quotient of the sum of the non-space counts of the
table by their number, and its variance is finite and non-negative, and at
least `2 ^ -128` when a count is `2 ^ -60` away from the mean. -/
theorem report_of_table (order : Table → List (CChar × Nat)) (horder : ValidOrder order)
    (table : Table) (hkeys : table.keys.Nodup) (hfit : ∀ e ∈ table, e.2 ≤ UINT32_MAX)
    (hne : ∃ e ∈ table, e.1 ≠ space) :
    ∃ report μ v, verbose_report (order table) = some report ∧
      (collect_non_space table).length ≠ 0 ∧
      (collect_non_space table).length ≤ 256 ∧
      (∀ f ∈ collect_non_space table, f < UINT_MOD) ∧
      report.mean = some μ ∧ 0 ≤ μ ∧ μ ≤ 2 ^ (32 : ℤ) ∧
      round64 ((((collect_non_space table).sum : Nat) : ℚ)
        / (((collect_non_space table).length : Nat) : ℚ)) = some μ ∧
      report.variance = some v ∧ 0 ≤ v ∧
      ((∃ f ∈ collect_non_space table, (2 : ℚ) ^ (-60 : ℤ) ≤ |(f : ℚ) - μ|) →
        (2 : ℚ) ^ (-128 : ℤ) ≤ v) := by
  have hp := collect_perm order horder table
  have hfit2 : ∀ f ∈ collect_non_space table, f < UINT_MOD :=
    collect_fit table (fun e he => by
      have := hfit e he
      simp only [UINT32_MAX, UINT_MOD] at this ⊢
      omega)
  have hne2 : collect_non_space (order table) ≠ [] := by
    obtain ⟨e, he, hsp⟩ := hne
    exact collect_ne_nil_of_mem _ ⟨e, (horder table).mem_iff.2 he, hsp⟩
  have hlen := collect_length_le order horder table hkeys
  obtain ⟨report, μ, v, hrep, hmean, hμ0, hμ32, hμr, hvar, hv0, hvfar⟩ :=
    report_bounds (order table) hne2 hlen (fun f hf => hfit2 f (hp.mem_iff.1 hf))
  rw [hp.sum_eq, hp.length_eq] at hμr
  refine ⟨report, μ, v, hrep, ?_, by rw [← hp.length_eq]; exact hlen, hfit2, hmean, hμ0,
    hμ32, hμr, hvar, hv0, ?_⟩
  · rw [← hp.length_eq]
    exact fun h0 => hne2 (List.length_eq_zero.1 h0)
  · rintro ⟨f, hf, hfar⟩
    exact hvfar ⟨f, hp.mem_iff.2 hf, hfar⟩

/-- The loop of lines 76-80 on the counts 1, 1, 2: the sum 4 is exact and the
quotient by 3 is rounded. -/
theorem compute_mean_112 :
    compute_mean [1, 1, 2] = some (6004799503160661 / 4503599627370496) := by
  have hq : (((List.sum [1, 1, 2] : Nat) : ℚ)) / (((List.length [1, 1, 2] : Nat) : ℚ))
      = 4 / 3 := by
    norm_num
  have hr : round64 (4 / 3) = some (6004799503160661 / 4503599627370496) := by
    apply round64_cert_pos (4 / 3) _ 0 (-52) 6004799503160661 (by decide) <;> norm_num
  rw [compute_mean_eq _ (by decide) (by norm_num) (by norm_num), hq, hr]

theorem three_not_dvd_two_pow (n : ℕ) : ¬ (3 : ℤ) ∣ 2 ^ n := by
  intro h
  have h3 : Prime (3 : ℤ) := Int.prime_iff_natAbs_prime.2 (by norm_num)
  have := h3.dvd_of_dvd_pow h
  norm_num at this

/-- A multiple of three times a dyadic number is not a power of two: a
fraction with a denominator divisible by three is not dyadic. -/
theorem three_mul_dyadic_ne (c N j : ℤ) (i : ℕ) :
    3 * (c : ℚ) * ((N : ℚ) * 2 ^ j) ≠ 2 ^ i := by
  intro h
  rcases le_or_lt 0 j with hj | hj
  · rw [two_zpow_eq_cast j hj] at h
    have h2 : (3 * c * (N * 2 ^ j.toNat) : ℤ) = 2 ^ i := by exact_mod_cast h
    exact three_not_dvd_two_pow i ⟨c * (N * 2 ^ j.toNat), by rw [← h2]; ring⟩
  · have hs : (2 : ℚ) ^ j * 2 ^ (-j) = 1 := by
      rw [← zpow_add₀ (by norm_num : (2 : ℚ) ≠ 0)]
      simp
    rw [two_zpow_eq_cast (-j) (by omega)] at hs
    have h3 : 3 * (c : ℚ) * (N : ℚ) = 2 ^ i * (((2 : ℤ) ^ (-j).toNat : ℤ) : ℚ) := by
      rw [← h]
      linear_combination (-(3 * (c : ℚ) * N)) * hs
    have h2 : (3 * c * N : ℤ) = 2 ^ i * 2 ^ (-j).toNat := by exact_mod_cast h3
    rw [← pow_add] at h2
    exact three_not_dvd_two_pow _ ⟨c * N, by rw [← h2]; ring⟩

/-- No double is `4 / 3`. -/
theorem not_representable_four_thirds (r : ℚ) (hr : Representable r) : r ≠ 4 / 3 := by
  obtain ⟨M, j, _, _, _, rfl⟩ := hr
  intro h
  apply three_mul_dyadic_ne 1 M j 2
  rw [h]
  norm_num

/-- C15 (amended): for every table of `unsigned int` counts with distinct keys
and at least one non-space entry, under every iteration order, the verbose
block ends and its mean is the exact quotient of the sum of the non-space
counts by their number `n`, rounded once to the nearest double: the mean is a
double, no double is nearer to the exact quotient, and the mean is the exact
quotient whenever that quotient is a double. The count of the space never
contributes: a table with the same non-space counts, whatever its count for
the space and its iteration order, has the same mean. -/
theorem mean_is_rounded_quotient (order : Table → List (CChar × Nat))
    (horder : ValidOrder order) (table : Table) (hkeys : table.keys.Nodup)
    (hfit : ∀ e ∈ table, e.2 ≤ UINT32_MAX) (hne : ∃ e ∈ table, e.1 ≠ space) :
    ∃ report μ, verbose_report (order table) = some report ∧
      (collect_non_space table).length ≠ 0 ∧
      report.mean = some μ ∧
      round64 ((((collect_non_space table).sum : Nat) : ℚ)
        / (((collect_non_space table).length : Nat) : ℚ)) = some μ ∧
      Representable μ ∧
      (∀ r, Representable r →
        |μ - (((collect_non_space table).sum : Nat) : ℚ)
            / (((collect_non_space table).length : Nat) : ℚ)|
          ≤ |r - (((collect_non_space table).sum : Nat) : ℚ)
            / (((collect_non_space table).length : Nat) : ℚ)|) ∧
      (Representable ((((collect_non_space table).sum : Nat) : ℚ)
          / (((collect_non_space table).length : Nat) : ℚ)) →
        μ = (((collect_non_space table).sum : Nat) : ℚ)
          / (((collect_non_space table).length : Nat) : ℚ)) ∧
      (∀ (order2 : Table → List (CChar × Nat)) (table2 : Table), ValidOrder order2 →
        (collect_non_space table2).Perm (collect_non_space table) →
        ∃ report2, verbose_report (order2 table2) = some report2 ∧
          report2.mean = some μ) := by
  obtain ⟨report, μ, v, hrep, hn, hlen, hfit2, hmean, _, _, hμr, _⟩ :=
    report_of_table order horder table hkeys hfit hne
  refine ⟨report, μ, hrep, hn, hmean, hμr, round64_representable hμr,
    fun r hr => round64_nearest hμr r hr, ?_, ?_⟩
  · intro hq
    rw [round64_of_representable _ hq] at hμr
    exact (Option.some.inj hμr).symm
  · intro order2 table2 horder2 hperm
    have hp := (collect_perm order2 horder2 table2).trans hperm
    have hne2 : collect_non_space (order2 table2) ≠ [] := by
      intro h0
      apply hn
      rw [← hp.length_eq, h0]
      rfl
    obtain ⟨report2, μ2, _, hrep2, hmean2, _, _, hμr2, _⟩ :=
      report_bounds (order2 table2) hne2 (by rw [hp.length_eq]; exact hlen)
        (fun f hf => hfit2 f (hp.mem_iff.1 hf))
    rw [hp.sum_eq, hp.length_eq, hμr] at hμr2
    exact ⟨report2, hrep2, by rw [hmean2, ← hμr2]⟩

/-- C15, witness: the table `x -> 2, ' ' -> 7, y -> 1` has mean `3 / 2`, the
exact quotient, and so has the same table without its space. -/
theorem mean_is_rounded_quotient_witness :
    ∃ report report2,
      verbose_report [((120 : CChar), 2), (32, 7), (121, 1)] = some report ∧
      report.mean = some (3 / 2) ∧
      verbose_report [((120 : CChar), 2), (121, 1)] = some report2 ∧
      report2.mean = some (3 / 2) := by
  obtain ⟨report, μ, hrep, _, hmean, _, _, _, hexact, hspace⟩ :=
    mean_is_rounded_quotient (fun t => t) (fun t => List.Perm.refl t)
      [((120 : CChar), 2), (32, 7), (121, 1)] (by decide) (by decide) (by decide)
  have hq : (((collect_non_space [((120 : CChar), 2), (32, 7), (121, 1)]).sum : Nat) : ℚ)
      / (((collect_non_space [((120 : CChar), 2), (32, 7), (121, 1)]).length : Nat) : ℚ)
      = 3 / 2 := by
    have h1 : collect_non_space [((120 : CChar), 2), (32, 7), (121, 1)] = [2, 1] := by decide
    rw [h1]
    norm_num
  have hμ : μ = 3 / 2 := by
    rw [← hq]
    apply hexact
    rw [hq]
    exact ⟨3, -1, by norm_num, by norm_num, by norm_num, by norm_num⟩
  obtain ⟨report2, hrep2, hmean2⟩ :=
    hspace (fun t => t) [((120 : CChar), 2), (121, 1)] (fun t => List.Perm.refl t)
      (by decide)
  rw [hμ] at hmean hmean2
  exact ⟨report, report2, hrep, hmean, hrep2, hmean2⟩

/-- C15, counterexample: for the table `x -> 1, y -> 1, z -> 2` the sum of the
counts is 4 and `n = 3`, but the mean of the report is the double
`6004799503160661 / 2 ^ 52`, which is not `4 / 3`; no double is `4 / 3`. -/
theorem mean_not_exact_counterexample :
    ∃ report,
      verbose_report [((120 : CChar), 1), (121, 1), (122, 2)] = some report ∧
      (((collect_non_space [((120 : CChar), 1), (121, 1), (122, 2)]).sum : Nat) : ℚ)
        / (((collect_non_space [((120 : CChar), 1), (121, 1), (122, 2)]).length : Nat) : ℚ)
        = 4 / 3 ∧
      report.mean = some (6004799503160661 / 4503599627370496) ∧
      report.mean ≠ some (4 / 3) ∧
      (∀ r, Representable r → r ≠ 4 / 3) := by
  have hcol : collect_non_space [((120 : CChar), 1), (121, 1), (122, 2)] = [1, 1, 2] := by
    decide
  obtain ⟨report, hrep⟩ := Option.isSome_iff_exists.1
    (verbose_report_isSome [((120 : CChar), 1), (121, 1), (122, 2)] (by rw [hcol]; simp))
  obtain ⟨_, _, _, _, _, hmean, _, _⟩ := verbose_report_some hrep
  rw [hcol, compute_mean_112] at hmean
  refine ⟨report, hrep, ?_, hmean, ?_, not_representable_four_thirds⟩
  · rw [hcol]
    norm_num
  · rw [hmean]
    intro h
    have := Option.some.inj h
    norm_num at this

theorem increment_absent (t : Table) (c : CChar) (h : c ∉ Table.keys t) :
    increment t c = t ++ [(c, (0 + 1) % UINT_MOD)] := by
  induction t with
  | nil => rfl
  | cons e t ih =>
    obtain ⟨k, v⟩ := e
    have hk : ¬ k = c := fun hkc => h (by simp [Table.keys, hkc])
    have ht : c ∉ Table.keys t := fun hc => h (by
      simp only [Table.keys, List.map_cons, List.mem_cons]
      exact Or.inr hc)
    simp only [increment, hk, if_false, ih ht, List.cons_append]

theorem increment_last (t : Table) (c : CChar) (k : Nat) (h : c ∉ Table.keys t) :
    increment (t ++ [(c, k)]) c = t ++ [(c, (k + 1) % UINT_MOD)] := by
  induction t with
  | nil => simp [increment]
  | cons e t ih =>
    obtain ⟨k2, v⟩ := e
    have hk : ¬ k2 = c := fun hkc => h (by simp [Table.keys, hkc])
    have ht : c ∉ Table.keys t := fun hc => h (by
      simp only [Table.keys, List.map_cons, List.mem_cons]
      exact Or.inr hc)
    have hstep : increment ((k2, v) :: (t ++ [(c, k)])) c
        = (k2, v) :: increment (t ++ [(c, k)]) c := by
      simp only [increment, hk, if_false]
    rw [List.cons_append, hstep, ih ht, List.cons_append]

theorem count_line_replicate_last (t : Table) (c : CChar) (n k : Nat)
    (h : c ∉ Table.keys t) :
    count_line (t ++ [(c, k % UINT_MOD)]) (List.replicate n c)
      = t ++ [(c, (k + n) % UINT_MOD)] := by
  induction n generalizing k with
  | zero => rfl
  | succ n ih =>
    have h1 := ih (k + 1)
    simp only [count_line, List.replicate_succ, List.foldl_cons] at h1 ⊢
    rw [increment_last t c _ h, Nat.mod_add_mod, h1, Nat.add_right_comm k 1 n,
      Nat.add_assoc k n 1]

/-- Counting `n ≥ 1` copies of a character that is not yet a key appends one
entry. -/
theorem count_line_replicate_absent (t : Table) (c : CChar) (n : Nat) (hn : 1 ≤ n)
    (h : c ∉ Table.keys t) :
    count_line t (List.replicate n c) = t ++ [(c, n % UINT_MOD)] := by
  obtain ⟨m, rfl⟩ : ∃ m, n = m + 1 := ⟨n - 1, by omega⟩
  have h1 := count_line_replicate_last t c m (0 + 1) h
  simp only [count_line, List.replicate_succ, List.foldl_cons] at h1 ⊢
  rw [increment_absent t c h, h1, Nat.zero_add, Nat.add_comm 1 m]

/-- The table of a file made of `n` copies of `a` followed by `m` copies of
`b`, on one line. -/
theorem read_loop_two_blocks (a b : CChar) (n m : Nat) (hab : a ≠ b) (ha : a ≠ newline)
    (hb : b ≠ newline) (hn : 1 ≤ n) (hm : 1 ≤ m) :
    read_loop (List.replicate n a ++ List.replicate m b) []
      = [(a, n % UINT_MOD), (b, m % UINT_MOD)] := by
  rw [read_loop_eq, List.filter_append,
    List.filter_replicate_of_pos (by simpa using ha),
    List.filter_replicate_of_pos (by simpa using hb)]
  have h1 : count_line [] (List.replicate n a ++ List.replicate m b)
      = count_line (count_line [] (List.replicate n a)) (List.replicate m b) := by
    simp only [count_line, List.foldl_append]
  rw [h1, count_line_replicate a n hn,
    count_line_replicate_absent _ b m hm (by simpa [Table.keys] using Ne.symm hab)]
  rfl

/-- The report of a returned verbose call is the report of the verbose block
run over the returned table. -/
theorem report_of_returned {order : Table → List (CChar × Nat)} {content : List CChar}
    {table : Table} {report : Report}
    (h : get_character_frequencies order (some content) true
      = Outcome.returned table [] (some report)) :
    table = read_loop content [] ∧ verbose_report (order table) = some report := by
  simp only [get_character_frequencies, if_true] at h
  split at h
  · simp at h
  · rename_i r hr
    simp only [Outcome.returned.injEq, Option.some.injEq, true_and] at h
    rw [← h.1, hr, h.2]
    exact ⟨rfl, rfl⟩

/-- C14 (evaluation at the failing input): for the file made of `2 ^ 31`
letters `a` followed by `2 ^ 31` letters `b`, under every iteration order, the
table is `a -> 2147483648, b -> 2147483648`, the sorted vector of non-space
counts is `[2147483648, 2147483648]`, and the median of the report is `0`, not
the average `2147483648` of the two middle elements: their sum wraps around in
`unsigned int` before it is halved. -/
theorem median_wraps_for_large_counts (order : Table → List (CChar × Nat))
    (horder : ValidOrder order) :
    ∃ report,
      get_character_frequencies order
          (some (List.replicate 2147483648 97 ++ List.replicate 2147483648 98)) true
        = Outcome.returned [(97, 2147483648), (98, 2147483648)] [] (some report) ∧
      (collect_non_space (order [(97, 2147483648), (98, 2147483648)])).insertionSort
          (fun a b => a ≤ b) = [2147483648, 2147483648] ∧
      report.median = some 0 ∧
      report.median ≠ some (((2147483648 : ℚ) + 2147483648) / 2) := by
  have hr : read_loop (List.replicate 2147483648 97 ++ List.replicate 2147483648 98) []
      = [(97, 2147483648), (98, 2147483648)] := by
    rw [read_loop_two_blocks 97 98 _ _ (by decide) (by decide) (by decide) (by decide)
      (by decide)]
    rfl
  have hmem := List.mem_permutations'.2 (horder [(97, 2147483648), (98, 2147483648)])
  generalize hit : order [(97, 2147483648), (98, 2147483648)] = it at hmem
  have hall : ∀ it ∈ List.permutations' [((97 : CChar), 2147483648), (98, 2147483648)],
      (verbose_report it).isSome ∧
      (collect_non_space it).insertionSort (fun a b => a ≤ b)
        = [2147483648, 2147483648] := by
    decide
  obtain ⟨hsome, hsorted⟩ := hall it hmem
  obtain ⟨report, hrep⟩ := Option.isSome_iff_exists.1 hsome
  obtain ⟨_, _, _, _, _, _, hmed, _⟩ := verbose_report_some hrep
  have hmedian : compute_median [2147483648, 2147483648] = some (some 0) := by
    simp [compute_median, vector_at, SIZE_MOD, UINT_MOD]
  rw [hsorted, hmedian, Option.some.injEq] at hmed
  refine ⟨report, ?_, hsorted, hmed.symm, ?_⟩
  · simp only [get_character_frequencies, hr, hit, hrep, if_true]
  · rw [← hmed]
    norm_num

/-- C14, witness: the iteration order that follows the insertion order. -/
theorem median_wraps_for_large_counts_witness :
    ∃ report,
      get_character_frequencies (fun t => t)
          (some (List.replicate 2147483648 97 ++ List.replicate 2147483648 98)) true
        = Outcome.returned [(97, 2147483648), (98, 2147483648)] [] (some report) ∧
      report.median = some 0 := by
  obtain ⟨report, hret, _, hmed, _⟩ :=
    median_wraps_for_large_counts (fun t => t) (fun t => List.Perm.refl t)
  exact ⟨report, hret, hmed⟩

/-- What the median code computes on a non-empty vector whose size fits a
`size_t`: for even size the halved `unsigned int` sum of the elements at
`n / 2 - 1` and `n / 2`, for odd size the element at `n / 2`. -/
theorem compute_median_spec (s : List Nat) (hn : s.length ≠ 0) (hsz : s.length < SIZE_MOD) :
    (s.length % 2 = 0 ∧ ∃ a b, s[s.length / 2 - 1]? = some a ∧ s[s.length / 2]? = some b ∧
        compute_median s = some (some ((((a + b) % UINT_MOD : Nat) : ℚ) / 2))) ∨
    (s.length % 2 ≠ 0 ∧ ∃ a, s[s.length / 2]? = some a ∧
        compute_median s = some (some (a : ℚ))) := by
  have hmid : s.length / 2 < s.length := Nat.div_lt_self (by omega) (by decide)
  by_cases heven : s.length % 2 = 0
  · left
    have hidx : (s.length / 2 + SIZE_MOD - 1) % SIZE_MOD = s.length / 2 - 1 := by
      have h2 : s.length / 2 + SIZE_MOD - 1 = (s.length / 2 - 1) + SIZE_MOD := by omega
      rw [h2, Nat.add_mod_right]
      exact Nat.mod_eq_of_lt (by omega)
    have hlow : s.length / 2 - 1 < s.length := by omega
    refine ⟨heven, s.get ⟨s.length / 2 - 1, hlow⟩, s.get ⟨s.length / 2, hmid⟩, ?_, ?_, ?_⟩
    · simp [List.getElem?_eq_getElem hlow]
    · simp [List.getElem?_eq_getElem hmid]
    · unfold compute_median
      simp only [heven, if_true, hidx]
      rw [vector_at_of_lt _ _ hlow, vector_at_of_lt _ _ hmid]
  · right
    refine ⟨heven, s.get ⟨s.length / 2, hmid⟩, ?_, ?_⟩
    · simp [List.getElem?_eq_getElem hmid]
    · unfold compute_median
      simp only [heven, if_false]
      rw [vector_at_of_lt _ _ hmid]

/-- Every non-space count lies between the two extremes found by the scan. -/
theorem collect_between (entries : List (CChar × Nat)) (f : Nat)
    (hf : f ∈ collect_non_space entries) :
    (scan entries).min_freq ≤ f ∧ f ≤ (scan entries).max_freq := by
  obtain ⟨e, he, rfl⟩ := List.mem_map.1 hf
  obtain ⟨hin, hp⟩ := List.mem_filter.1 he
  have hsp : e.1 ≠ space := by simpa using hp
  exact ⟨(scan_min_invariant entries).1 e hin hsp, (scan_max_invariant entries).1 e hin hsp⟩

/-- The mean of the report lies between `min_freq` and `max_freq`: rounding to
the nearest double does not cross a representable bound. -/
theorem mean_between_extremes (entries : List (CChar × Nat))
    (hne : ∃ e ∈ entries, e.1 ≠ space)
    (hlen : (collect_non_space entries).length ≤ 256)
    (hfit : ∀ f ∈ collect_non_space entries, f < UINT_MOD) :
    ∃ report mean, verbose_report entries = some report ∧ report.mean = some mean ∧
      (report.min_freq : ℚ) ≤ mean ∧ mean ≤ (report.max_freq : ℚ) := by
  have h0 := collect_ne_nil_of_mem entries hne
  obtain ⟨report, μ, v, hrep, hmean, _, _, hμr, _⟩ := report_bounds entries h0 hlen hfit
  obtain ⟨_, _, hmax, _, hmin, _, _, _⟩ := verbose_report_some hrep
  have hpos : 0 < (collect_non_space entries).length := List.length_pos.2 h0
  have hq : (0 : ℚ) < (((collect_non_space entries).length : Nat) : ℚ) := by
    exact_mod_cast hpos
  have hlow : (collect_non_space entries).length * (scan entries).min_freq
      ≤ (collect_non_space entries).sum := by
    have := List.card_nsmul_le_sum (collect_non_space entries) (scan entries).min_freq
      (fun f hf => (collect_between entries f hf).1)
    simpa [smul_eq_mul] using this
  have hhigh : (collect_non_space entries).sum
      ≤ (collect_non_space entries).length * (scan entries).max_freq := by
    have := List.sum_le_card_nsmul (collect_non_space entries) (scan entries).max_freq
      (fun f hf => (collect_between entries f hf).2)
    simpa [smul_eq_mul] using this
  -- both extremes are counts of the vector, hence doubles
  obtain ⟨f, hf⟩ := List.exists_mem_of_ne_nil _ h0
  obtain ⟨e, he, hsp⟩ := hne
  have hmin53 : (scan entries).min_freq < 2 ^ 53 := by
    have h1 := (collect_between entries f hf).1
    have h2 := hfit f hf
    simp only [UINT_MOD] at h2
    omega
  have hmax53 : (scan entries).max_freq < 2 ^ 53 := by
    rcases (scan_max_invariant entries).2.2 with hnone | ⟨e2, he2, hsp2, heq⟩
    · have h1 := (scan_max_invariant entries).1 e he hsp
      have h2 : e.2 ∈ collect_non_space entries :=
        List.mem_map.2 ⟨e, List.mem_filter.2 ⟨he, by simpa using hsp⟩, rfl⟩
      have h3 := hfit _ h2
      simp only [UINT_MOD] at h3
      omega
    · have h2 : e2.2 ∈ collect_non_space entries :=
        List.mem_map.2 ⟨e2, List.mem_filter.2 ⟨he2, by simpa using hsp2⟩, rfl⟩
      have h3 := hfit _ h2
      simp only [UINT_MOD] at h3
      omega
  refine ⟨report, μ, hrep, hmean, ?_, ?_⟩
  · rw [hmin]
    refine round64_ge_of_ge hμr (representable_natCast _ hmin53) ?_
    rw [le_div_iff₀ hq]
    exact_mod_cast (Nat.mul_comm _ _ ▸ hlow)
  · rw [hmax]
    refine round64_le_of_le hμr (representable_natCast _ hmax53) ?_
    rw [div_le_iff₀ hq]
    exact_mod_cast (Nat.mul_comm _ _ ▸ hhigh)

/-- When the sum of any two non-space counts fits an `unsigned int`, the
median of the report lies between `min_freq` and `max_freq`. -/
theorem median_between_extremes (entries : List (CChar × Nat))
    (hne : ∃ e ∈ entries, e.1 ≠ space) (hsz : entries.length < SIZE_MOD)
    (hfit : ∀ f ∈ collect_non_space entries, ∀ g ∈ collect_non_space entries,
      f + g < UINT_MOD) :
    ∃ report median, verbose_report entries = some report ∧ report.median = some median ∧
      (report.min_freq : ℚ) ≤ median ∧ median ≤ (report.max_freq : ℚ) := by
  have h0 := collect_ne_nil_of_mem entries hne
  obtain ⟨report, hrep⟩ := Option.isSome_iff_exists.1 (verbose_report_isSome entries h0)
  obtain ⟨_, _, hmax, _, hmin, _, hmed, _⟩ := verbose_report_some hrep
  have hperm := List.perm_insertionSort (fun a b : Nat => a ≤ b) (collect_non_space entries)
  have hlen : ((collect_non_space entries).insertionSort (fun a b => a ≤ b)).length ≠ 0 := by
    rw [hperm.length_eq]
    exact fun hl => h0 (List.length_eq_zero.1 hl)
  have hlt : ((collect_non_space entries).insertionSort (fun a b => a ≤ b)).length
      < SIZE_MOD := by
    rw [hperm.length_eq]
    have h1 : (collect_non_space entries).length ≤ entries.length := by
      simp only [collect_non_space, List.length_map]
      exact List.length_filter_le _ _
    omega
  have hin : ∀ {i a},
      ((collect_non_space entries).insertionSort (fun a b => a ≤ b))[i]? = some a →
      a ∈ collect_non_space entries :=
    fun h => hperm.mem_iff.1 (List.getElem?_mem h)
  rcases compute_median_spec _ hlen hlt with ⟨_, a, b, ha, hb, hm⟩ | ⟨_, a, ha, hm⟩
  · rw [hm, Option.some.injEq] at hmed
    have hab := hfit a (hin ha) b (hin hb)
    obtain ⟨ha1, ha2⟩ := collect_between entries a (hin ha)
    obtain ⟨hb1, hb2⟩ := collect_between entries b (hin hb)
    refine ⟨report, _, hrep, hmed.symm, ?_, ?_⟩
    · rw [hmin, Nat.mod_eq_of_lt hab, le_div_iff₀ (by norm_num)]
      have : (scan entries).min_freq * 2 ≤ a + b := by omega
      exact_mod_cast this
    · rw [hmax, Nat.mod_eq_of_lt hab, div_le_iff₀ (by norm_num)]
      have : a + b ≤ (scan entries).max_freq * 2 := by omega
      exact_mod_cast this
  · rw [hm, Option.some.injEq] at hmed
    obtain ⟨ha1, ha2⟩ := collect_between entries a (hin ha)
    refine ⟨report, _, hrep, hmed.symm, ?_, ?_⟩
    · rw [hmin]
      exact_mod_cast ha1
    · rw [hmax]
      exact_mod_cast ha2

/-- C20 (evaluation at the failing input): for the file made of `3 * 2 ^ 30`
letters `a` followed by `3 * 2 ^ 30` letters `b`, under every iteration order,
the report has `min_freq = max_freq = 3221225472` and mean `3221225472`, but
median `1073741824`, which is below `min_freq`. -/
theorem median_below_min_freq (order : Table → List (CChar × Nat))
    (horder : ValidOrder order) :
    ∃ report,
      get_character_frequencies order
          (some (List.replicate 3221225472 97 ++ List.replicate 3221225472 98)) true
        = Outcome.returned [(97, 3221225472), (98, 3221225472)] [] (some report) ∧
      report.min_freq = 3221225472 ∧ report.max_freq = 3221225472 ∧
      report.mean = some 3221225472 ∧
      report.median = some 1073741824 ∧
      ¬ ((report.min_freq : ℚ) ≤ 1073741824) := by
  have hr : read_loop (List.replicate 3221225472 97 ++ List.replicate 3221225472 98) []
      = [(97, 3221225472), (98, 3221225472)] := by
    rw [read_loop_two_blocks 97 98 _ _ (by decide) (by decide) (by decide) (by decide)
      (by decide)]
    rfl
  have hmem := List.mem_permutations'.2 (horder [(97, 3221225472), (98, 3221225472)])
  generalize hit : order [(97, 3221225472), (98, 3221225472)] = it at hmem
  have hall : ∀ it ∈ List.permutations' [((97 : CChar), 3221225472), (98, 3221225472)],
      (verbose_report it).isSome ∧
      collect_non_space it = [3221225472, 3221225472] ∧
      (scan it).min_freq = 3221225472 ∧ (scan it).max_freq = 3221225472 := by
    decide
  obtain ⟨hsome, hcol, hmin, hmax⟩ := hall it hmem
  obtain ⟨report, hrep⟩ := Option.isSome_iff_exists.1 hsome
  obtain ⟨_, _, h2, _, h4, h5, h6, _⟩ := verbose_report_some hrep
  have hsorted : List.insertionSort (fun a b => a ≤ b) [3221225472, 3221225472]
      = [3221225472, 3221225472] := by decide
  have hmedian : compute_median [3221225472, 3221225472] = some (some 1073741824) := by
    simp [compute_median, vector_at, SIZE_MOD, UINT_MOD]
    norm_num
  have hmean : compute_mean [3221225472, 3221225472] = some 3221225472 := by
    rw [compute_mean_eq _ (by decide) (by norm_num) (by norm_num)]
    have hq : (((List.sum [3221225472, 3221225472] : Nat) : ℚ))
        / (((List.length [3221225472, 3221225472] : Nat) : ℚ))
        = ((3221225472 : Nat) : ℚ) := by
      norm_num
    rw [hq, round64_natCast _ (by norm_num)]
    norm_num
  rw [hcol, hsorted, hmedian, Option.some.injEq] at h6
  rw [hcol, hmean] at h5
  refine ⟨report, ?_, h4.trans hmin, h2.trans hmax, h5, h6.symm, ?_⟩
  · simp only [get_character_frequencies, hr, hit, hrep, if_true]
  · rw [h4, hmin]
    norm_num

/-- C20, witness: the iteration order that follows the insertion order. -/
theorem median_below_min_freq_witness :
    ∃ report,
      get_character_frequencies (fun t => t)
          (some (List.replicate 3221225472 97 ++ List.replicate 3221225472 98)) true
        = Outcome.returned [(97, 3221225472), (98, 3221225472)] [] (some report) ∧
      report.min_freq = 3221225472 ∧ report.median = some 1073741824 := by
  obtain ⟨report, hret, hmin, _, _, hmed, _⟩ :=
    median_below_min_freq (fun t => t) (fun t => List.Perm.refl t)
  exact ⟨report, hret, hmin, hmed⟩

/-! ## Counting is additive over lines -/

/-- The table returned for a file is the table built from its lines. -/
theorem returns_table_of_lines (order : Table → List (CChar × Nat)) (content : List CChar) :
    ReturnsTable order content (table_of_lines (read_lines content)) := by
  have h := returns_table order content
  rw [← read_loop_eq, read_loop_eq_foldl] at h
  exact h

theorem find?_table_of_lines (lines : List (List CChar)) (c : CChar) :
    (table_of_lines lines).find? c =
      if lines.flatten.count c = 0 then none
      else some (lines.flatten.count c % UINT_MOD) := by
  rw [table_of_lines, foldl_count_line, find?_count_line]
  simp [Table.find?]

theorem getD_table_of_lines (lines : List (List CChar)) (c : CChar) :
    ((table_of_lines lines).find? c).getD 0 = lines.flatten.count c % UINT_MOD := by
  rw [find?_table_of_lines]
  by_cases h : lines.flatten.count c = 0
  · simp [h]
  · simp [h]

theorem mem_keys_table_of_lines (lines : List (List CChar)) (c : CChar) :
    c ∈ (table_of_lines lines).keys ↔ c ∈ lines.flatten := by
  rw [table_of_lines, foldl_count_line, mem_keys_count_line]
  simp [Table.keys]

theorem flatten_perm_of_forall₂ {A B : List (List CChar)}
    (h : List.Forall₂ List.Perm A B) : A.flatten.Perm B.flatten := by
  induction h with
  | nil => exact List.Perm.refl _
  | cons hab _ ih =>
    rw [List.flatten_cons, List.flatten_cons]
    exact hab.append ih

theorem find?_one_line (c : CChar) (n : Nat) :
    (table_of_lines [List.replicate n c]).find? c
      = if n = 0 then none else some (n % UINT_MOD) := by
  rw [find?_table_of_lines]
  simp

theorem find?_two_lines (c : CChar) (n k : Nat) :
    (table_of_lines ([List.replicate n c] ++ [List.replicate k c])).find? c
      = if n + k = 0 then none else some ((n + k) % UINT_MOD) := by
  rw [find?_table_of_lines]
  simp

/-- C19 (as amended): for all lists of lines `A` and `B` and every character
`c`, `c` is a key of the table for `A` followed by `B` exactly when it is a
key of the table for `A` or of the table for `B`, and its count there is the
sum of its counts in the two tables (an absent key counting as `0`) reduced
modulo `2 ^ 32`, hence exactly the sum when `c` occurs fewer than `2 ^ 32`
times in `A` and `B` together; the table maps every character to the same
count for any permutation of the lines and for any permutation of the
characters within the lines. -/
theorem counting_additive (A B : List (List CChar)) (c : CChar) :
    (c ∈ (table_of_lines (A ++ B)).keys
      ↔ c ∈ (table_of_lines A).keys ∨ c ∈ (table_of_lines B).keys) ∧
    ((table_of_lines (A ++ B)).find? c).getD 0
      = (((table_of_lines A).find? c).getD 0 + ((table_of_lines B).find? c).getD 0)
          % UINT_MOD ∧
    ((A ++ B).flatten.count c < UINT_MOD →
      ((table_of_lines (A ++ B)).find? c).getD 0
        = ((table_of_lines A).find? c).getD 0 + ((table_of_lines B).find? c).getD 0) ∧
    (∀ A2 : List (List CChar), A2.Perm A →
      (table_of_lines A2).find? c = (table_of_lines A).find? c) ∧
    (∀ A2 : List (List CChar), List.Forall₂ List.Perm A2 A →
      (table_of_lines A2).find? c = (table_of_lines A).find? c) := by
  refine ⟨?_, ?_, ?_, ?_, ?_⟩
  · simp only [mem_keys_table_of_lines, List.flatten_append, List.mem_append]
  · simp only [getD_table_of_lines, List.flatten_append, List.count_append]
    exact Nat.add_mod _ _ _
  · intro hlt
    simp only [getD_table_of_lines, List.flatten_append, List.count_append] at hlt ⊢
    rw [Nat.mod_eq_of_lt hlt, Nat.mod_eq_of_lt (by omega), Nat.mod_eq_of_lt (by omega)]
  · intro A2 hperm
    rw [find?_table_of_lines, find?_table_of_lines, hperm.flatten.count_eq]
  · intro A2 hperm
    rw [find?_table_of_lines, find?_table_of_lines, (flatten_perm_of_forall₂ hperm).count_eq]

/-- C19, witness: the lines `"a"`, `"b"` followed by the line `"a"`. -/
theorem counting_additive_witness :
    ((table_of_lines ([[97], [98]] ++ [[97]])).find? 97).getD 0
      = ((table_of_lines [[97], [98]]).find? 97).getD 0
        + ((table_of_lines [[97]]).find? 97).getD 0 :=
  (counting_additive [[97], [98]] [[97]] 97).2.2.1 (by decide)

/-- C19, counterexample: with `A` and `B` each the one line of `2 ^ 31`
letters `a`, both tables map `a` to `2147483648`, and the table for `A`
followed by `B` maps `a` to `0`, not to `4294967296`. -/
theorem counting_additive_counterexample :
    (table_of_lines [List.replicate 2147483648 97]).find? 97 = some 2147483648 ∧
    (table_of_lines ([List.replicate 2147483648 97] ++ [List.replicate 2147483648 97])).find?
        97 = some 0 ∧
    (0 : Nat) ≠ 2147483648 + 2147483648 := by
  refine ⟨?_, ?_, by decide⟩
  · rw [find?_one_line]
    decide
  · rw [find?_two_lines]
    decide

/-! ## Two runs on the same content -/

/-- C11 (evaluation at the failing input): for the file made of one line
terminator, a run with `verbose = false` returns the empty table while a run
with `verbose = true` indexes the empty vector `non_space_freqs` and returns
no table. -/
theorem runs_differ_without_non_space (order1 order2 : Table → List (CChar × Nat))
    (horder : ValidOrder order2) :
    get_character_frequencies order1 (some [newline]) false = Outcome.returned [] [] none ∧
    get_character_frequencies order2 (some [newline]) true = Outcome.undefined_behaviour ∧
    (get_character_frequencies order1 (some [newline]) false).table?
      ≠ (get_character_frequencies order2 (some [newline]) true).table? := by
  have hr : read_loop [newline] [] = [] := by
    rw [read_loop_eq]
    decide
  have ho : order2 [] = [] := List.perm_nil.1 (horder _)
  have h1 : get_character_frequencies order1 (some [newline]) false
      = Outcome.returned [] [] none := by
    simp only [get_character_frequencies, hr]
    rfl
  have h2 : get_character_frequencies order2 (some [newline]) true
      = Outcome.undefined_behaviour := by
    simp only [get_character_frequencies, hr, ho, if_true]
    rfl
  refine ⟨h1, h2, ?_⟩
  rw [h1, h2]
  simp [Outcome.table?]

/-- C11, witness: both runs iterate in insertion order. -/
theorem runs_differ_without_non_space_witness :
    get_character_frequencies (fun t => t) (some [newline]) false
      = Outcome.returned [] [] none ∧
    get_character_frequencies (fun t => t) (some [newline]) true
      = Outcome.undefined_behaviour :=
  ⟨(runs_differ_without_non_space (fun t => t) (fun t => t) (fun t => List.Perm.refl t)).1,
   (runs_differ_without_non_space (fun t => t) (fun t => t) (fun t => List.Perm.refl t)).2.1⟩

end TextFile
